import Mathlib

/-!
gozip: the local-file-header decoder of `cmd/list.go`

A shallow embedding of the decoder of the `list` command and the properties
of its specification.

Conventions of the embedding.

* A Go `[]byte` is a `List Byte` with `Byte = Fin 256`; a Go `string` is the
  same byte sequence (Go strings are uninterpreted bytes, `string(b)` copies
  them without validation).
* Go's `int` is taken 64 bits wide, so that `int(x)` of a `uint16` or `uint32`
  keeps the value; offsets are natural numbers (every claim is about
  `offset >= 0`). The readers and the parser are given twice. The first
  family (`readUint32`, `readUint16`, `readBytes`, `readString`,
  `parseLocalFileHeader`) takes the sums `offset + n` in the natural numbers;
  it is the program wherever no sum reaches `2^63`, which is the case of
  every offset the walk computes: a slice is shorter than `2^63 - 2^33`
  bytes, and an offset is at most the length of the buffer plus two 32-bit
  sizes. The second family (`readUint32W`, `readUint16W`, `readBytesW`,
  `readStringW`, `parseLocalFileHeaderW`) wraps the sums to 64 bits and has
  the panic of a slice expression with bounds out of range; the properties
  of the readers that range over every `offset >= 0`, up to the largest
  `int`, are stated on it.
  The two families agree wherever no sum wraps (`readUint16W_eq`,
  `readUint32W_eq`, `readBytesW_eq`, `parseW_eq`).
* `uint16`/`uint32` values are natural numbers; the one arithmetic operation
  on them that can overflow (`(t & 0x1F) * 2`) carries its `% 2^16`.
* The three results `(value, next, err)` of the readers are kept as a triple,
  because `parseLocalFileHeader` looks at the value of its first read without
  looking at `err`.
* `compress/flate` is not part of the repository: the decompressor
  (`ioutil.ReadAll(flate.NewReader(..))`) is a parameter `inflate`.
* `time.Date` is not part of the repository: a `time.Time` is represented by
  the arguments `time.Date` was called with, and its year (`Time.Year`) is
  computed from them by the normalization of package `time` and the zone
  information of the location; the zone of `time.Local`, which depends on the
  machine, is a parameter.
-/

namespace GoZip

/-- One octet of the buffer. -/
abbrev Byte := Fin 256

/-- The `error` values the decoder can return: the two package-level errors
of `list.go`, and an error coming out of the decompressor. -/
inductive Error where
  | errNotZip
  | errOverranBuffer
  | flateError (code : Nat)
  deriving DecidableEq, Repr

/-- Type `compression` with its two constants (`iota` order). -/
inductive compression where
  | noCompression
  | deflateCompression
  deriving DecidableEq, Repr

/-- The location argument of `time.Date`. -/
inductive Location where
  | Local
  | UTC
  deriving DecidableEq, Repr

/-- A `time.Time`, represented by the arguments of the `time.Date` call that
built it. -/
structure Time where
  year : Nat
  month : Nat
  day : Nat
  hour : Nat
  min : Nat
  sec : Nat
  nsec : Nat
  loc : Location
  deriving DecidableEq, Repr

/-- The call `time.Date(year, month, day, hour, min, sec, nsec, loc)`. -/
def Date (year month day hour min sec nsec : Nat) (loc : Location) : Time :=
  { year := year, month := month, day := day, hour := hour, min := min,
    sec := sec, nsec := nsec, loc := loc }

/-- Struct `localFileHeader`. -/
structure localFileHeader where
  signature : Nat
  version : Nat
  bitflag : Nat
  compression : compression
  lastModified : Time
  crc32 : Nat
  compressedSize : Nat
  uncompressedSize : Nat
  fileName : List Byte
  extraField : List Byte
  fileContents : List Byte
  fileContentsByte : List Byte
  deriving DecidableEq, Repr

/-- The slice expression `bs[lo:hi]` (for `lo <= hi <= len(bs)`). -/
def slice (bs : List Byte) (lo hi : Nat) : List Byte :=
  (bs.take hi).drop lo

/-- `binary.LittleEndian.Uint16(b)`: `uint16(b[0]) | uint16(b[1])<<8` (the
readers call it on a slice of exactly 2 bytes). -/
def leUint16 (b : List Byte) : Nat :=
  (b.getD 0 0).val ||| ((b.getD 1 0).val <<< 8)

/-- `binary.LittleEndian.Uint32(b)`:
`uint32(b[0]) | uint32(b[1])<<8 | uint32(b[2])<<16 | uint32(b[3])<<24` (the
readers call it on a slice of exactly 4 bytes). -/
def leUint32 (b : List Byte) : Nat :=
  (b.getD 0 0).val ||| ((b.getD 1 0).val <<< 8) ||| ((b.getD 2 0).val <<< 16)
    ||| ((b.getD 3 0).val <<< 24)

/-- `readUint32(bs, offset)`, with its three results, the sum `offset + 4`
taken in the natural numbers: the function of the source for
`offset + 4 < 2^63` (`readUint32W_eq`). -/
def readUint32 (bs : List Byte) (offset : Nat) : Nat × Nat × Option Error :=
  let endOff := offset + 4
  if endOff > bs.length then (0, 0, some Error.errOverranBuffer)
  else (leUint32 (slice bs offset endOff), endOff, none)

/-- `readUint16(bs, offset)`, with its three results, the sum `offset + 2`
taken in the natural numbers: the function of the source for
`offset + 2 < 2^63` (`readUint16W_eq`). -/
def readUint16 (bs : List Byte) (offset : Nat) : Nat × Nat × Option Error :=
  let endOff := offset + 2
  if endOff > bs.length then (0, 0, some Error.errOverranBuffer)
  else (leUint16 (slice bs offset endOff), endOff, none)

/-- `readBytes(bs, offset, n)`, with its three results (`nil` is `[]`), the
sum `offset + n` taken in the natural numbers: the function of the source for
`offset + n < 2^63` (`readBytesW_eq`). -/
def readBytes (bs : List Byte) (offset n : Nat) : List Byte × Nat × Option Error :=
  let endOff := offset + n
  if endOff > bs.length then ([], 0, some Error.errOverranBuffer)
  else (slice bs offset (offset + n), endOff, none)

/-- `readString(bs, offset, n)`: the results of `readBytes`, the bytes given
twice (as `string(read)` and as `read`). -/
def readString (bs : List Byte) (offset n : Nat) :
    List Byte × List Byte × Nat × Option Error :=
  let r := readBytes bs offset n
  (r.1, r.1, r.2.1, r.2.2)

/-- `msdosTimeToGoTime(d, t)` on two `uint16` words. -/
def msdosTimeToGoTime (d t : Nat) : Time :=
  let seconds := ((t &&& 0x1F) * 2) % 2 ^ 16
  let minutes := (t >>> 5) &&& 0x3F
  let hours := t >>> 11
  let day := d &&& 0x1F
  let month := (d >>> 5) &&& 0x0F
  let year := ((d >>> 9) &&& 0x7F) + 1980
  Date year month day hours minutes seconds 0 Location.Local

/-- The statement `if nil != err { return nil, 0, err }` after a read: the
value and the next offset go on, an error leaves the function. -/
def checked {α : Type} (r : α × Nat × Option Error) : Except Error (α × Nat) :=
  match r.2.2 with
  | some e => Except.error e
  | none => Except.ok (r.1, r.2.1)

/-- The same statement after `readString`, which has four results. -/
def checkedString (r : List Byte × List Byte × Nat × Option Error) :
    Except Error (List Byte × List Byte × Nat) :=
  match r.2.2.2 with
  | some e => Except.error e
  | none => Except.ok (r.1, r.2.1, r.2.2.1)

/-- `parseLocalFileHeader(bs, start)`. The results `(nil, 0, err)` are
`Except.error err`, the results `(&lfh, i, nil)` are `Except.ok (lfh, i)`.
The first read is the only one whose `err` is not looked at. The sums are
taken in the natural numbers: the function of the source for
`start + 2^33 <= 2^63` (`parseW_eq`). -/
def parseLocalFileHeader (inflate : List Byte → Except Nat (List Byte))
    (bs : List Byte) (start : Nat) : Except Error (localFileHeader × Nat) :=
  let r0 := readUint32 bs start
  let signature := r0.1
  let i := r0.2.1
  if signature ≠ 0x04034b50 then Except.error Error.errNotZip
  else do
    let (version, i) ← checked (readUint16 bs i)
    let (bitFlag, i) ← checked (readUint16 bs i)
    let (compressionRaw, i) ← checked (readUint16 bs i)
    let comp :=
      if 8 = compressionRaw then compression.deflateCompression
      else compression.noCompression
    let (lmTime, i) ← checked (readUint16 bs i)
    let (lmDate, i) ← checked (readUint16 bs i)
    let lastModified := msdosTimeToGoTime lmDate lmTime
    let (crc32, i) ← checked (readUint32 bs i)
    let (compressedSize, i) ← checked (readUint32 bs i)
    let (uncompressedSize, i) ← checked (readUint32 bs i)
    let (fileNameLength, i) ← checked (readUint16 bs i)
    let (extraFieldLength, i) ← checked (readUint16 bs i)
    let (fileName, _, i) ← checkedString (readString bs i fileNameLength)
    let (extraField, i) ← checked (readBytes bs i extraFieldLength)
    let (fileContents, fileContentsByte, i) ←
      if comp = compression.noCompression then
        checkedString (readString bs i uncompressedSize)
      else
        let endOff := i + compressedSize
        if endOff > bs.length then Except.error Error.errOverranBuffer
        else
          match inflate (slice bs i endOff) with
          | Except.error c => Except.error (Error.flateError c)
          | Except.ok read => Except.ok (read, read, endOff)
    pure ({ signature := signature, version := version, bitflag := bitFlag,
            compression := comp, lastModified := lastModified,
            crc32 := crc32, compressedSize := compressedSize,
            uncompressedSize := uncompressedSize, fileName := fileName,
            extraField := extraField, fileContents := fileContents,
            fileContentsByte := fileContentsByte }, i)

/-- How one run of the loop of the list command ends. -/
inductive WalkEnd where
  /-- The loop was left, by its condition or by `break`, at this offset. -/
  | finished (endOff : Nat)
  /-- The call `check(err)` panicked with `err`. -/
  | panicError (e : Error)
  /-- The index expression `lfh.fileContentsByte[index]` panicked (index out
  of range for a slice of this length). -/
  | panicIndex (index length : Nat)
  /-- The model ran out of fuel (not a behaviour of the program). -/
  | outOfFuel
  deriving DecidableEq, Repr

/-- What the list command did on a buffer: the headers it printed, in order,
and how it ended. -/
structure WalkResult where
  printed : List localFileHeader
  outcome : WalkEnd
  deriving DecidableEq, Repr

/-- The loop `for end < len(f) { ... }` of the list command, started with the
loop variable at `endOff`; one unit of fuel per iteration. The header of an
iteration is printed after the three index expressions. -/
def walkLoop (inflate : List Byte → Except Nat (List Byte)) (f : List Byte) :
    Nat → Nat → WalkResult
  | 0, _ => { printed := [], outcome := WalkEnd.outOfFuel }
  | fuel + 1, endOff =>
    if endOff < f.length then
      match parseLocalFileHeader inflate f endOff with
      | Except.error err =>
        if err = Error.errNotZip ∧ endOff > 0 then
          { printed := [], outcome := WalkEnd.finished endOff }
        else { printed := [], outcome := WalkEnd.panicError err }
      | Except.ok (lfh, next) =>
        if lfh.fileContentsByte.length ≤ 0 then
          { printed := [], outcome := WalkEnd.panicIndex 0 lfh.fileContentsByte.length }
        else if lfh.fileContentsByte.length ≤ 1 then
          { printed := [], outcome := WalkEnd.panicIndex 1 lfh.fileContentsByte.length }
        else if lfh.fileContentsByte.length ≤ 2 then
          { printed := [], outcome := WalkEnd.panicIndex 2 lfh.fileContentsByte.length }
        else
          let rest := walkLoop inflate f fuel next
          { printed := lfh :: rest.printed, outcome := rest.outcome }
    else { printed := [], outcome := WalkEnd.finished endOff }

/-- The body of `listCmd.Run` once the file has been read into `f`: the loop
from offset 0. Every iteration that goes on moves the offset forward, so
`len(f) + 1` units of fuel are never used up. -/
def listRun (inflate : List Byte → Except Nat (List Byte)) (f : List Byte) :
    WalkResult :=
  walkLoop inflate f (f.length + 1) 0

/-! ## The readers and the parser in Go's `int` arithmetic

The definitions above take the sums `offset + n` in the natural numbers. In
Go the sum is an `int` of 64 bits and wraps. The definitions of this section
are the same functions with the wrapped sum, and with the run-time panic of a
slice expression whose bounds are out of range, which the wrapped sum makes
possible. On every offset whose sums do not wrap the two families agree
(`readUint16W_eq`, `readUint32W_eq`, `readBytesW_eq`, `parseW_eq` below). -/

/-- The value of the Go expression `a + b` for two non-negative `int`s: the
sum wrapped to 64 bits in two's complement. -/
def intAdd (a b : Nat) : Int :=
  (((a + b : Nat) : Int) + 2 ^ 63) % 2 ^ 64 - 2 ^ 63

/-- What a call does: it returns a value, returns an error, or panics. -/
inductive Outcome (α : Type) where
  | ok (a : α)
  | err (e : Error)
  | panic
  deriving DecidableEq, Repr

/-- Sequencing: an error or a panic of the first call ends the function. -/
def Outcome.bind {α β : Type} (x : Outcome α) (f : α → Outcome β) : Outcome β :=
  match x with
  | Outcome.ok a => f a
  | Outcome.err e => Outcome.err e
  | Outcome.panic => Outcome.panic

instance : Monad Outcome where
  pure := Outcome.ok
  bind := Outcome.bind

/-- The outcome with the next offset of a successful parse changed by `f`. -/
def Outcome.mapNext {α : Type} (f : Nat → Nat) : Outcome (α × Nat) → Outcome (α × Nat)
  | Outcome.ok r => Outcome.ok (r.1, f r.2)
  | Outcome.err e => Outcome.err e
  | Outcome.panic => Outcome.panic

/-- A result of the parser of the first family, as an outcome. -/
def Outcome.ofExcept {α : Type} : Except Error α → Outcome α
  | Except.ok a => Outcome.ok a
  | Except.error e => Outcome.err e

/-- `readUint32(bs, offset)` with `end := offset + 4` computed in `int`;
`none` is the panic of the slice expression `bs[offset:end]` on `end < offset`
(its upper bound `end <= len(bs)` holds once the guard has been passed). -/
def readUint32W (bs : List Byte) (offset : Nat) : Option (Nat × Nat × Option Error) :=
  let endOff := intAdd offset 4
  if endOff > (bs.length : Int) then some (0, 0, some Error.errOverranBuffer)
  else if (offset : Int) ≤ endOff then
    some (leUint32 (slice bs offset endOff.toNat), endOff.toNat, none)
  else none

/-- `readUint16(bs, offset)` with `end := offset + 2` computed in `int`;
`none` is the panic of the slice expression `bs[offset:end]`. -/
def readUint16W (bs : List Byte) (offset : Nat) : Option (Nat × Nat × Option Error) :=
  let endOff := intAdd offset 2
  if endOff > (bs.length : Int) then some (0, 0, some Error.errOverranBuffer)
  else if (offset : Int) ≤ endOff then
    some (leUint16 (slice bs offset endOff.toNat), endOff.toNat, none)
  else none

/-- `readBytes(bs, offset, n)` with `end := offset + n` computed in `int`;
`none` is the panic of the slice expression `bs[offset : offset+n]`. -/
def readBytesW (bs : List Byte) (offset n : Nat) : Option (List Byte × Nat × Option Error) :=
  let endOff := intAdd offset n
  if endOff > (bs.length : Int) then some ([], 0, some Error.errOverranBuffer)
  else if (offset : Int) ≤ intAdd offset n then
    some (slice bs offset (intAdd offset n).toNat, endOff.toNat, none)
  else none

/-- `readString(bs, offset, n)` over `readBytesW`: a panic of `readBytes` is a
panic of `readString`. -/
def readStringW (bs : List Byte) (offset n : Nat) :
    Option (List Byte × List Byte × Nat × Option Error) :=
  (readBytesW bs offset n).map (fun r => (r.1, r.1, r.2.1, r.2.2))

/-- A read whose `err` is not looked at: its three results go on as they
are, a panic ends the function. -/
def uncheckedW {α : Type} (r : Option α) : Outcome α :=
  match r with
  | none => Outcome.panic
  | some x => Outcome.ok x

/-- The statement `if nil != err { return nil, 0, err }` after a read that may
have panicked. -/
def checkedW {α : Type} (r : Option (α × Nat × Option Error)) : Outcome (α × Nat) :=
  match r with
  | none => Outcome.panic
  | some x =>
    match x.2.2 with
    | some e => Outcome.err e
    | none => Outcome.ok (x.1, x.2.1)

/-- The same statement after `readString`. -/
def checkedStringW (r : Option (List Byte × List Byte × Nat × Option Error)) :
    Outcome (List Byte × List Byte × Nat) :=
  match r with
  | none => Outcome.panic
  | some x =>
    match x.2.2.2 with
    | some e => Outcome.err e
    | none => Outcome.ok (x.1, x.2.1, x.2.2.1)

/-- `parseLocalFileHeader(bs, start)` over the readers of this section, with
`end := i + int(compressedSize)` of the deflate path computed in `int` and
the panic of `bs[i:end]` there. -/
def parseLocalFileHeaderW (inflate : List Byte → Except Nat (List Byte))
    (bs : List Byte) (start : Nat) : Outcome (localFileHeader × Nat) :=
  (uncheckedW (readUint32W bs start)).bind fun r0 =>
    let signature := r0.1
    let i := r0.2.1
    if signature ≠ 0x04034b50 then Outcome.err Error.errNotZip
    else do
      let (version, i) ← checkedW (readUint16W bs i)
      let (bitFlag, i) ← checkedW (readUint16W bs i)
      let (compressionRaw, i) ← checkedW (readUint16W bs i)
      let comp :=
        if 8 = compressionRaw then compression.deflateCompression
        else compression.noCompression
      let (lmTime, i) ← checkedW (readUint16W bs i)
      let (lmDate, i) ← checkedW (readUint16W bs i)
      let lastModified := msdosTimeToGoTime lmDate lmTime
      let (crc32, i) ← checkedW (readUint32W bs i)
      let (compressedSize, i) ← checkedW (readUint32W bs i)
      let (uncompressedSize, i) ← checkedW (readUint32W bs i)
      let (fileNameLength, i) ← checkedW (readUint16W bs i)
      let (extraFieldLength, i) ← checkedW (readUint16W bs i)
      let (fileName, _, i) ← checkedStringW (readStringW bs i fileNameLength)
      let (extraField, i) ← checkedW (readBytesW bs i extraFieldLength)
      let (fileContents, fileContentsByte, i) ←
        if comp = compression.noCompression then
          checkedStringW (readStringW bs i uncompressedSize)
        else
          let endOff := intAdd i compressedSize
          if endOff > (bs.length : Int) then Outcome.err Error.errOverranBuffer
          else if (i : Int) ≤ endOff then
            match inflate (slice bs i endOff.toNat) with
            | Except.error c => Outcome.err (Error.flateError c)
            | Except.ok read => Outcome.ok (read, read, endOff.toNat)
          else Outcome.panic
      pure ({ signature := signature, version := version, bitflag := bitFlag,
              compression := comp, lastModified := lastModified,
              crc32 := crc32, compressedSize := compressedSize,
              uncompressedSize := uncompressedSize, fileName := fileName,
              extraField := extraField, fileContents := fileContents,
              fileContentsByte := fileContentsByte }, i)

/-! ## The calendar constructor

`time.Date` is part of the Go standard library, not of the repository. Its
documentation says that the month, day, hour, min, sec and nsec values may be
outside their usual ranges and are normalized during the conversion (October
32 converts to November 1). The definitions below model that normalization,
as far as the year of the result is concerned, after the source of package
`time`: `norm` and `isLeap` are translated from it, `daysIn` is its table of
month lengths, and `normDay` is the carry of a day number outside its month
into the neighbouring months, which `time.Date` performs by counting days.
The location is taken into account through its zone information (`Zone`):
`time.Date` subtracts the offset it finds for the date and time asked, and
the methods of the result add the offset in force at the instant built; the
two differ when the time asked falls at a change of offset (`zoneShift`). -/

/-- Function `norm(hi, lo, base)` of package `time`: the pair `(nhi, nlo)`
with `nhi * base + nlo = hi * base + lo` and `0 <= nlo < base`. -/
def norm (hi lo base : Int) : Int × Int :=
  let r1 : Int × Int :=
    if lo < 0 then
      let n := (-lo - 1) / base + 1
      (hi - n, lo + n * base)
    else (hi, lo)
  if r1.2 ≥ base then
    let n := r1.2 / base
    (r1.1 + n, r1.2 - n * base)
  else r1

/-- Function `isLeap(year)` of package `time`. -/
def isLeap (year : Int) : Bool :=
  year % 4 = 0 && (year % 100 ≠ 0 || year % 400 = 0)

/-- Function `daysIn(m, year)` of package `time`: the number of days of month
`m` (1 to 12) of `year`. -/
def daysIn (m : Int) (year : Int) : Int :=
  if m = 2 then (if isLeap year then 29 else 28)
  else if m = 4 ∨ m = 6 ∨ m = 9 ∨ m = 11 then 30
  else 31

/-- The date `(year, month, day)` with the day brought inside its month, the
month being between 1 and 12: a day below 1 goes to the month before, a day
past the end of the month to the month after; one unit of fuel per month
passed. -/
def normDay : Nat → Int → Int → Int → Int × Int × Int
  | 0, y, m, d => (y, m, d)
  | fuel + 1, y, m, d =>
    if d < 1 then
      if m = 1 then normDay fuel (y - 1) 12 (d + daysIn 12 (y - 1))
      else normDay fuel y (m - 1) (d + daysIn (m - 1) y)
    else if d > daysIn m y then
      if m = 12 then normDay fuel (y + 1) 1 (d - daysIn m y)
      else normDay fuel y (m + 1) (d - daysIn m y)
    else (y, m, d)

/-- The zone information of a location, as method `lookup` of
`*time.Location` gives it: for a Unix time, the offset in seconds east of UTC
in force at that time, and the Unix times at which that offset starts and
ends. -/
structure Zone where
  lookup : Int → Int × Int × Int

/-- The zone of `time.UTC`: offset 0 at all times. -/
def utcZone : Zone :=
  ⟨fun _ => (0, -2 ^ 63, 2 ^ 63 - 1)⟩

/-- A zone with one offset at all times. -/
def fixedZone (offset : Int) : Zone :=
  ⟨fun _ => (offset, -2 ^ 63, 2 ^ 63 - 1)⟩

/-- A zone with one change of offset, at the Unix time `change`. -/
def changingZone (before after change : Int) : Zone :=
  ⟨fun u => if u < change then (before, -2 ^ 63, change) else (after, change, 2 ^ 63 - 1)⟩

/-- The zone `Pacific/Kiritimati` around its change of 31 December 1994, from
10 h 40 min west of UTC to 14 h east of it, at 10:40 UTC (Unix time
788870400): the local date 31 December 1994 does not exist there. -/
def kiritimati : Zone :=
  changingZone (-38400) 50400 788870400

/-- The zone of a location: of `time.UTC`, and of `time.Local`, which is the
zone of the machine the program runs on. -/
def Location.zone (localZone : Zone) : Location → Zone
  | Location.Local => localZone
  | Location.UTC => utcZone

/-- The days from 1 January 1970 to 1 January of `year`. -/
def daysBeforeYear (year : Int) : Int :=
  365 * (year - 1970) + ((year - 1) / 4 - (year - 1) / 100 + (year - 1) / 400) - 477

/-- Table `daysBefore` of package `time`: the days of a non-leap year before
month `m` (1 to 12). -/
def daysBefore (m : Int) : Int :=
  [0, 31, 59, 90, 120, 151, 181, 212, 243, 273, 304, 334].getD (m - 1).toNat 0

/-- The Unix time `time.Date` computes from its arguments before it looks at
the location: the seconds from 1 January 1970, 00:00:00, to the date and time
asked, read as a time of UTC. The month is normalized into the year, the
nanoseconds, seconds, minutes and hours are normalized upward in turn, into
the day, and the days are counted. -/
def Time.unixWall (t : Time) : Int :=
  let ym := norm t.year ((t.month : Int) - 1) 12
  let sn := norm t.sec t.nsec 1000000000
  let ms := norm t.min sn.1 60
  let hm := norm t.hour ms.1 60
  let dh := norm t.day hm.1 24
  let d := daysBeforeYear ym.1 + daysBefore (ym.2 + 1)
    + (if isLeap ym.1 ∧ ym.2 + 1 ≥ 3 then 1 else 0) + (dh.1 - 1)
  d * 86400 + (dh.2 * 3600 + hm.2 * 60 + ms.2)

/-- The Unix time of the time `time.Date` builds in zone `z`: the offset
found for the time asked is subtracted; when the time so obtained is outside
the period of that offset, the offset in force at that time is subtracted
instead. -/
def Time.unixSec (z : Zone) (t : Time) : Int :=
  let unix := t.unixWall
  let r := z.lookup unix
  let offset := r.1
  if offset ≠ 0 then
    let utc := unix - offset
    let offset2 := if utc < r.2.1 ∨ utc ≥ r.2.2 then (z.lookup utc).1 else offset
    unix - offset2
  else unix

/-- The seconds between the date and time asked of `time.Date` and the date
and time the methods of the result show in zone `z` (the offset in force at
the instant built is added back): 0 unless the time asked falls at a change
of offset. -/
def Time.zoneShift (z : Zone) (t : Time) : Int :=
  t.unixSec z + (z.lookup (t.unixSec z)).1 - t.unixWall

/-- The year of the date `shift` seconds after the date and time recorded in
`t`: the seconds are moved by `shift`, the month is normalized into the year,
the nanoseconds, seconds, minutes and hours are normalized upward in turn,
into the day, as in `time.Date`, and the day is brought inside its month. -/
def Time.yearAfter (t : Time) (shift : Int) : Int :=
  let ym := norm t.year ((t.month : Int) - 1) 12
  let sn := norm ((t.sec : Int) + shift) t.nsec 1000000000
  let ms := norm t.min sn.1 60
  let hm := norm t.hour ms.1 60
  let dh := norm t.day hm.1 24
  (normDay (dh.1.natAbs + 1) ym.1 (ym.2 + 1) dh.1).1

/-- The year of a `time.Time` (method `Year`), for the time built by
`time.Date` from the arguments recorded in `t`, on a machine whose local zone
is `localZone`: the year of the date and time asked, moved by the shift of
the zone of `t.loc`. -/
def Time.Year (localZone : Zone) (t : Time) : Int :=
  t.yearAfter (t.zoneShift (t.loc.zone localZone))

/-- The packed date word made again from the components of a time:
`((year - 1980) << 9) | (month << 5) | day`. -/
def packDate (x : Time) : Nat :=
  ((x.year - 1980) <<< 9) ||| (x.month <<< 5) ||| x.day

/-- The packed time word made again from the components of a time:
`(hours << 11) | (minutes << 5) | (seconds / 2)`. -/
def packTime (x : Time) : Nat :=
  (x.hour <<< 11) ||| (x.min <<< 5) ||| (x.sec / 2)

/-! ## Values at fixed positions -/

/-- The little-endian 16-bit value at position `k` of `bs`:
`bs[k] + 2^8 * bs[k+1]`. -/
def u16At (bs : List Byte) (k : Nat) : Nat :=
  (bs.getD k 0).val + 2 ^ 8 * (bs.getD (k + 1) 0).val

/-- The little-endian 32-bit value at position `k` of `bs`:
`bs[k] + 2^8 * bs[k+1] + 2^16 * bs[k+2] + 2^24 * bs[k+3]`. -/
def u32At (bs : List Byte) (k : Nat) : Nat :=
  (bs.getD k 0).val + 2 ^ 8 * (bs.getD (k + 1) 0).val + 2 ^ 16 * (bs.getD (k + 2) 0).val
    + 2 ^ 24 * (bs.getD (k + 3) 0).val

/-- The offset of the content of the entry that starts at `start`: after the
30-byte block, the file name and the extra field. -/
def contentStart (bs : List Byte) (start : Nat) : Nat :=
  start + 30 + u16At bs (start + 26) + u16At bs (start + 28)

/-- The header made of the values at the fixed positions of the layout, for
the entry that starts at `start`, with `content` as its decoded content. -/
def headerAt (bs : List Byte) (start : Nat) (content : List Byte) : localFileHeader :=
  { signature := u32At bs start, version := u16At bs (start + 4),
    bitflag := u16At bs (start + 6),
    compression :=
      if 8 = u16At bs (start + 8) then compression.deflateCompression
      else compression.noCompression,
    lastModified := msdosTimeToGoTime (u16At bs (start + 12)) (u16At bs (start + 10)),
    crc32 := u32At bs (start + 14), compressedSize := u32At bs (start + 18),
    uncompressedSize := u32At bs (start + 22),
    fileName := slice bs (start + 30) (start + 30 + u16At bs (start + 26)),
    extraField := slice bs (start + 30 + u16At bs (start + 26))
      (start + 30 + u16At bs (start + 26) + u16At bs (start + 28)),
    fileContents := content, fileContentsByte := content }

/-! ## Building buffers

The properties below speak of buffers built field by field; these are the
builders. -/

/-- The byte `v mod 256`. -/
def byteOf (v : Nat) : Byte := ⟨v % 256, Nat.mod_lt _ (by decide)⟩

/-- The two bytes of a 16-bit value, least significant first. -/
def le16 (v : Nat) : List Byte := [byteOf v, byteOf (v / 2 ^ 8)]

/-- The four bytes of a 32-bit value, least significant first. -/
def le32 (v : Nat) : List Byte :=
  [byteOf v, byteOf (v / 2 ^ 8), byteOf (v / 2 ^ 16), byteOf (v / 2 ^ 24)]

/-- The values of the fixed-width fields of a local file header that are not
lengths of what follows it. -/
structure FixedFields where
  version : Nat
  bitflag : Nat
  method : Nat
  lmTime : Nat
  lmDate : Nat
  crc32 : Nat
  compressedSize : Nat
  uncompressedSize : Nat
  deriving DecidableEq, Repr

/-- Every field fits its width. -/
def FixedFields.wellFormed (x : FixedFields) : Prop :=
  x.version < 2 ^ 16 ∧ x.bitflag < 2 ^ 16 ∧ x.method < 2 ^ 16 ∧ x.lmTime < 2 ^ 16 ∧
    x.lmDate < 2 ^ 16 ∧ x.crc32 < 2 ^ 32 ∧ x.compressedSize < 2 ^ 32 ∧
    x.uncompressedSize < 2 ^ 32

instance (x : FixedFields) : Decidable x.wellFormed := by
  unfold FixedFields.wellFormed; infer_instance

/-- The 30-byte little-endian local file header: signature `0x04034B50`, the
fixed fields, then the two lengths. -/
def headerBytes (x : FixedFields) (fileNameLength extraFieldLength : Nat) : List Byte :=
  le32 0x04034b50 ++ (le16 x.version ++ (le16 x.bitflag ++ (le16 x.method ++
    (le16 x.lmTime ++ (le16 x.lmDate ++ (le32 x.crc32 ++ (le32 x.compressedSize ++
    (le32 x.uncompressedSize ++ (le16 fileNameLength ++ le16 extraFieldLength)))))))))

/-- One entry: the header with the actual lengths of the name and of the extra
field, then the name, the extra field and the stored bytes. -/
def entryBytes (x : FixedFields) (name extra stored : List Byte) : List Byte :=
  headerBytes x name.length extra.length ++ (name ++ (extra ++ stored))

/-- The header a successful parse of `entryBytes x name extra stored` is
expected to return, for the decoded content `content`. -/
def headerOf (x : FixedFields) (name extra content : List Byte) : localFileHeader :=
  { signature := 0x04034b50, version := x.version, bitflag := x.bitflag,
    compression :=
      if 8 = x.method then compression.deflateCompression else compression.noCompression,
    lastModified := msdosTimeToGoTime x.lmDate x.lmTime,
    crc32 := x.crc32, compressedSize := x.compressedSize,
    uncompressedSize := x.uncompressedSize, fileName := name, extraField := extra,
    fileContents := content, fileContentsByte := content }

/-- An entry of an archive as the properties speak of it: the fixed fields,
the name, the extra field, the bytes stored after them, and the content they
stand for. -/
structure Entry where
  fields : FixedFields
  name : List Byte
  extra : List Byte
  stored : List Byte
  content : List Byte
  deriving DecidableEq, Repr

/-- The bytes of an entry. -/
def Entry.bytes (e : Entry) : List Byte :=
  entryBytes e.fields e.name e.extra e.stored

/-- The header the entry decodes to. -/
def Entry.header (e : Entry) : localFileHeader :=
  headerOf e.fields e.name e.extra e.content

/-- A valid entry: the fields fit their widths, the lengths of the name and
of the extra field fit 16 bits, and either the method is not 8, the stored
bytes are the content and `uncompressedSize` is their length, or the method
is 8, `compressedSize` is the length of the stored bytes and the decompressor
inflates them to the content. -/
def Entry.valid (inflate : List Byte → Except Nat (List Byte)) (e : Entry) : Prop :=
  e.fields.wellFormed ∧ e.name.length < 2 ^ 16 ∧ e.extra.length < 2 ^ 16 ∧
    ((e.fields.method ≠ 8 ∧ e.fields.uncompressedSize = e.stored.length ∧
        e.content = e.stored) ∨
     (e.fields.method = 8 ∧ e.fields.compressedSize = e.stored.length ∧
        inflate e.stored = Except.ok e.content))

/-- The concatenation of the entries, in order. -/
def archive : List Entry → List Byte
  | [] => []
  | e :: es => e.bytes ++ archive es

/-- The result of a walk that first printed the headers `hs`. -/
def WalkResult.after (hs : List localFileHeader) (r : WalkResult) : WalkResult :=
  { printed := hs ++ r.printed, outcome := r.outcome }

/-- The number of successful parses of a walk: one for each header printed,
and one more when the walk stopped at an index expression, which comes after
a successful parse. -/
def WalkResult.parses (r : WalkResult) : Nat :=
  r.printed.length +
    (match r.outcome with
     | WalkEnd.panicIndex _ _ => 1
     | _ => 0)

/-- A decompressor for the witnesses: it inflates the raw-deflate streams
made of one final stored block (`01 LEN NLEN data`), and reports error 1 on
any other input. -/
def storedInflate (z : List Byte) : Except Nat (List Byte) :=
  match z with
  | b :: l0 :: l1 :: n0 :: n1 :: data =>
    if b.val = 1 ∧ l0.val + n0.val = 255 ∧ l1.val + n1.val = 255 ∧
        data.length = l0.val + 256 * l1.val then Except.ok data
    else Except.error 1
  | _ => Except.error 1

/-- The compressor that goes with `storedInflate`: one final stored block. -/
def storedDeflate (data : List Byte) : List Byte :=
  byteOf 1 :: (le16 data.length ++ (le16 (65535 - data.length % 65536) ++ data))

/-- The bytes of an ASCII text. -/
def ascii (s : String) : List Byte := s.toList.map (fun c => byteOf c.toNat)


/-! ## The readers -/

theorem or_shift_eq_add (a b i : Nat) (h : a < 2 ^ i) : a ||| (b <<< i) = a + 2 ^ i * b := by
  rw [Nat.or_comm, Nat.shiftLeft_eq, Nat.mul_comm b, ← Nat.mul_add_lt_is_or h, Nat.add_comm]

theorem slice_length (bs : List Byte) (lo hi : Nat) (h : hi ≤ bs.length) :
    (slice bs lo hi).length = hi - lo := by
  simp [slice, Nat.min_eq_left h]

theorem slice_getD (bs : List Byte) (lo hi k : Nat) (h : lo + k < hi) :
    (slice bs lo hi).getD k 0 = bs.getD (lo + k) 0 := by
  simp [slice, List.getElem?_take, h]

theorem leUint16_slice (bs : List Byte) (o : Nat) :
    leUint16 (slice bs o (o + 2)) = u16At bs o := by
  unfold leUint16 u16At
  rw [slice_getD bs o (o + 2) 0 (by omega), slice_getD bs o (o + 2) 1 (by omega)]
  rw [or_shift_eq_add _ _ 8 (by have := (bs.getD (o + 0) 0).isLt; omega)]
  rfl

theorem leUint32_slice (bs : List Byte) (o : Nat) :
    leUint32 (slice bs o (o + 4)) = u32At bs o := by
  unfold leUint32 u32At
  rw [slice_getD bs o (o + 4) 0 (by omega), slice_getD bs o (o + 4) 1 (by omega),
    slice_getD bs o (o + 4) 2 (by omega), slice_getD bs o (o + 4) 3 (by omega)]
  have h0 := (bs.getD (o + 0) 0).isLt
  have h1 := (bs.getD (o + 1) 0).isLt
  have h2 := (bs.getD (o + 2) 0).isLt
  rw [or_shift_eq_add _ _ 8 (by omega), or_shift_eq_add _ _ 16 (by omega),
    or_shift_eq_add _ _ 24 (by omega)]
  rfl

theorem readUint16_eq (bs : List Byte) (o : Nat) :
    readUint16 bs o =
      if bs.length < o + 2 then (0, 0, some Error.errOverranBuffer)
      else (u16At bs o, o + 2, none) := by
  simp only [readUint16, leUint16_slice, gt_iff_lt]

theorem readUint32_eq (bs : List Byte) (o : Nat) :
    readUint32 bs o =
      if bs.length < o + 4 then (0, 0, some Error.errOverranBuffer)
      else (u32At bs o, o + 4, none) := by
  simp only [readUint32, leUint32_slice, gt_iff_lt]

theorem checked_readUint16 (bs : List Byte) (o : Nat) :
    checked (readUint16 bs o) =
      if bs.length < o + 2 then Except.error Error.errOverranBuffer
      else Except.ok (u16At bs o, o + 2) := by
  rw [readUint16_eq]; split <;> rfl

theorem checked_readUint32 (bs : List Byte) (o : Nat) :
    checked (readUint32 bs o) =
      if bs.length < o + 4 then Except.error Error.errOverranBuffer
      else Except.ok (u32At bs o, o + 4) := by
  rw [readUint32_eq]; split <;> rfl

theorem checked_readBytes (bs : List Byte) (o n : Nat) :
    checked (readBytes bs o n) =
      if bs.length < o + n then Except.error Error.errOverranBuffer
      else Except.ok (slice bs o (o + n), o + n) := by
  simp only [readBytes, gt_iff_lt]; split <;> rfl

theorem checkedString_readString (bs : List Byte) (o n : Nat) :
    checkedString (readString bs o n) =
      if bs.length < o + n then Except.error Error.errOverranBuffer
      else Except.ok (slice bs o (o + n), slice bs o (o + n), o + n) := by
  simp only [readString, readBytes, gt_iff_lt]; split <;> rfl

theorem ite_bind_except {ε α β : Type} (c : Prop) [Decidable c] (e : ε) (v : α)
    (f : α → Except ε β) :
    ((if c then Except.error e else Except.ok v : Except ε α) >>= f) =
      if c then Except.error e else f v := by
  split <;> rfl

theorem ite_ite_error {ε α : Type} (c d : Prop) [Decidable c] [Decidable d] (e : ε)
    (x : Except ε α) :
    (if c then Except.error e else if d then Except.error e else x) =
      if c ∨ d then Except.error e else x := by
  by_cases hc : c <;> by_cases hd : d <;> simp [hc, hd]

/-! ## The parser in closed form -/

/-- What `parseLocalFileHeader` computes, in terms of the values at the fixed
positions of the layout. -/
theorem parse_eq (inflate : List Byte → Except Nat (List Byte)) (bs : List Byte) (start : Nat) :
    parseLocalFileHeader inflate bs start =
      if bs.length < start + 4 ∨ u32At bs start ≠ 0x04034b50 then Except.error Error.errNotZip
      else if bs.length < contentStart bs start ∨ bs.length < start + 30 then Except.error Error.errOverranBuffer
      else if u16At bs (start + 8) ≠ 8 then
        if bs.length < contentStart bs start + u32At bs (start + 22) then
          Except.error Error.errOverranBuffer
        else Except.ok (headerAt bs start (slice bs (contentStart bs start)
          (contentStart bs start + u32At bs (start + 22))),
            contentStart bs start + u32At bs (start + 22))
      else if bs.length < contentStart bs start + u32At bs (start + 18) then
        Except.error Error.errOverranBuffer
      else
        match inflate (slice bs (contentStart bs start)
            (contentStart bs start + u32At bs (start + 18))) with
        | Except.error c => Except.error (Error.flateError c)
        | Except.ok read => Except.ok (headerAt bs start read,
            contentStart bs start + u32At bs (start + 18)) := by
  unfold parseLocalFileHeader
  simp only [checked_readUint16, checked_readUint32,
        checked_readBytes, checkedString_readString, ite_bind_except]
  simp only [readUint32_eq]
  by_cases h4 : bs.length < start + 4
  · simp [h4]
  · simp only [h4, if_false, false_or]
    by_cases hs : u32At bs start = 0x04034b50
    · simp only [hs, ne_eq, not_true, if_false, contentStart, headerAt, Nat.add_assoc,
        Nat.reduceAdd, gt_iff_lt, ite_ite_error]
      by_cases h8 : u16At bs (start + 8) = 8
      · simp only [h8, if_true, not_true, if_false, reduceCtorEq]
        refine if_congr (by omega) rfl (if_congr Iff.rfl rfl ?_)
        cases inflate _ <;> rfl
      · have h8b : ¬ (8 = u16At bs (start + 8)) := fun h => h8 h.symm
        simp only [h8, h8b, if_true, not_false_eq_true, if_false]
        exact if_congr (by omega) rfl rfl
    · rw [if_pos hs, if_pos hs]



/-! ## Buffers built field by field -/

theorem headerBytes_length (x : FixedFields) (n e : Nat) : (headerBytes x n e).length = 30 := rfl

theorem entryBytes_length (x : FixedFields) (name extra stored : List Byte) :
    (entryBytes x name extra stored).length
      = 30 + name.length + extra.length + stored.length := by
  simp only [entryBytes, List.length_append, headerBytes_length]; omega

theorem getD_in_header (pre tl : List Byte) (x : FixedFields) (n e k : Nat) (hk : k < 30) :
    (pre ++ (headerBytes x n e ++ tl)).getD (pre.length + k) 0 = (headerBytes x n e).getD k 0 := by
  rw [List.getD_append_right _ _ _ _ (by omega), Nat.add_sub_cancel_left,
    List.getD_append _ _ _ _ (by rw [headerBytes_length]; exact hk)]

theorem u16At_in_header (pre tl : List Byte) (x : FixedFields) (n e k : Nat) (hk : k + 1 < 30) :
    u16At (pre ++ (headerBytes x n e ++ tl)) (pre.length + k) = u16At (headerBytes x n e) k := by
  unfold u16At
  rw [Nat.add_assoc pre.length k 1, getD_in_header _ _ _ _ _ _ (by omega),
    getD_in_header _ _ _ _ _ _ (by omega)]

theorem u32At_in_header (pre tl : List Byte) (x : FixedFields) (n e k : Nat) (hk : k + 3 < 30) :
    u32At (pre ++ (headerBytes x n e ++ tl)) (pre.length + k) = u32At (headerBytes x n e) k := by
  unfold u32At
  rw [Nat.add_assoc pre.length k 1, Nat.add_assoc pre.length k 2, Nat.add_assoc pre.length k 3,
    getD_in_header _ _ _ _ _ _ (by omega), getD_in_header _ _ _ _ _ _ (by omega),
    getD_in_header _ _ _ _ _ _ (by omega), getD_in_header _ _ _ _ _ _ (by omega)]

theorem u16_bytes (v : Nat) (hv : v < 2 ^ 16) :
    (byteOf v).val + 2 ^ 8 * (byteOf (v / 2 ^ 8)).val = v := by
  simp only [byteOf]; omega

theorem le32_sum (v : Nat) (hv : v < 4294967296) :
    v % 256 + 256 * (v / 256 % 256) + 65536 * (v / 65536 % 256)
      + 16777216 * (v / 16777216 % 256) = v := by
  omega

theorem u32_bytes (v : Nat) (hv : v < 2 ^ 32) :
    (byteOf v).val + 2 ^ 8 * (byteOf (v / 2 ^ 8)).val + 2 ^ 16 * (byteOf (v / 2 ^ 16)).val
      + 2 ^ 24 * (byteOf (v / 2 ^ 24)).val = v := by
  have h := le32_sum v (by norm_num at hv; exact hv)
  simp only [byteOf]
  norm_num
  exact h

theorem signature_bytes (x : FixedFields) (n e : Nat) :
    u32At (headerBytes x n e) 0 = 0x04034b50 := by
  have h : u32At (headerBytes x n e) 0 = u32At (le32 0x04034b50) 0 := rfl
  rw [h]
  decide

theorem header_values (x : FixedFields) (n e : Nat) (hx : x.wellFormed) (hn : n < 2 ^ 16)
    (he : e < 2 ^ 16) :
    u32At (headerBytes x n e) 0 = 0x04034b50 ∧ u16At (headerBytes x n e) 4 = x.version ∧
    u16At (headerBytes x n e) 6 = x.bitflag ∧ u16At (headerBytes x n e) 8 = x.method ∧
    u16At (headerBytes x n e) 10 = x.lmTime ∧ u16At (headerBytes x n e) 12 = x.lmDate ∧
    u32At (headerBytes x n e) 14 = x.crc32 ∧ u32At (headerBytes x n e) 18 = x.compressedSize ∧
    u32At (headerBytes x n e) 22 = x.uncompressedSize ∧ u16At (headerBytes x n e) 26 = n ∧
    u16At (headerBytes x n e) 28 = e := by
  obtain ⟨h1, h2, h3, h4, h5, h6, h7, h8⟩ := hx
  refine ⟨signature_bytes x n e, u16_bytes _ h1, u16_bytes _ h2, u16_bytes _ h3, u16_bytes _ h4,
    u16_bytes _ h5, u32_bytes _ h6, u32_bytes _ h7, u32_bytes _ h8, u16_bytes _ hn,
    u16_bytes _ he⟩


theorem entry_values (pre tl : List Byte) (x : FixedFields) (n e : Nat) (hx : x.wellFormed)
    (hn : n < 2 ^ 16) (he : e < 2 ^ 16) :
    u32At (pre ++ (headerBytes x n e ++ tl)) pre.length = 0x04034b50 ∧
    u16At (pre ++ (headerBytes x n e ++ tl)) (pre.length + 4) = x.version ∧
    u16At (pre ++ (headerBytes x n e ++ tl)) (pre.length + 6) = x.bitflag ∧
    u16At (pre ++ (headerBytes x n e ++ tl)) (pre.length + 8) = x.method ∧
    u16At (pre ++ (headerBytes x n e ++ tl)) (pre.length + 10) = x.lmTime ∧
    u16At (pre ++ (headerBytes x n e ++ tl)) (pre.length + 12) = x.lmDate ∧
    u32At (pre ++ (headerBytes x n e ++ tl)) (pre.length + 14) = x.crc32 ∧
    u32At (pre ++ (headerBytes x n e ++ tl)) (pre.length + 18) = x.compressedSize ∧
    u32At (pre ++ (headerBytes x n e ++ tl)) (pre.length + 22) = x.uncompressedSize ∧
    u16At (pre ++ (headerBytes x n e ++ tl)) (pre.length + 26) = n ∧
    u16At (pre ++ (headerBytes x n e ++ tl)) (pre.length + 28) = e := by
  obtain ⟨v0, v1, v2, v3, v4, v5, v6, v7, v8, v9, v10⟩ := header_values x n e hx hn he
  have h0 := u32At_in_header pre tl x n e 0 (by omega)
  rw [Nat.add_zero] at h0
  refine ⟨h0.trans v0, ?_, ?_, ?_, ?_, ?_, ?_, ?_, ?_, ?_, ?_⟩
  · rw [u16At_in_header _ _ _ _ _ _ (by omega)]; exact v1
  · rw [u16At_in_header _ _ _ _ _ _ (by omega)]; exact v2
  · rw [u16At_in_header _ _ _ _ _ _ (by omega)]; exact v3
  · rw [u16At_in_header _ _ _ _ _ _ (by omega)]; exact v4
  · rw [u16At_in_header _ _ _ _ _ _ (by omega)]; exact v5
  · rw [u32At_in_header _ _ _ _ _ _ (by omega)]; exact v6
  · rw [u32At_in_header _ _ _ _ _ _ (by omega)]; exact v7
  · rw [u32At_in_header _ _ _ _ _ _ (by omega)]; exact v8
  · rw [u16At_in_header _ _ _ _ _ _ (by omega)]; exact v9
  · rw [u16At_in_header _ _ _ _ _ _ (by omega)]; exact v10

theorem slice_append (a b c : List Byte) (lo hi : Nat) (hlo : lo = a.length)
    (hhi : hi = a.length + b.length) : slice (a ++ (b ++ c)) lo hi = b := by
  subst hlo hhi
  rw [slice, ← List.append_assoc, List.take_left' (by simp), List.drop_left]

/-- The three parts that follow the header of an entry placed after `pre` and
before `rest`, as slices of the whole buffer. -/
theorem entry_slices (pre rest : List Byte) (x : FixedFields) (name extra stored : List Byte) :
    slice (pre ++ (entryBytes x name extra stored ++ rest)) (pre.length + 30)
      (pre.length + 30 + name.length) = name ∧
    slice (pre ++ (entryBytes x name extra stored ++ rest)) (pre.length + 30 + name.length)
      (pre.length + 30 + name.length + extra.length) = extra ∧
    slice (pre ++ (entryBytes x name extra stored ++ rest))
      (pre.length + 30 + name.length + extra.length)
      (pre.length + 30 + name.length + extra.length + stored.length) = stored := by
  have hh := headerBytes_length x name.length extra.length
  refine ⟨?_, ?_, ?_⟩
  · have e : pre ++ (entryBytes x name extra stored ++ rest)
        = (pre ++ headerBytes x name.length extra.length) ++ (name ++ (extra ++ (stored ++ rest))) := by
      simp [entryBytes, List.append_assoc]
    rw [e]; exact slice_append _ _ _ _ _ (by simp [hh]) (by simp [hh])
  · have e : pre ++ (entryBytes x name extra stored ++ rest)
        = (pre ++ (headerBytes x name.length extra.length ++ name)) ++ (extra ++ (stored ++ rest)) := by
      simp [entryBytes, List.append_assoc]
    rw [e]; exact slice_append _ _ _ _ _ (by simp [hh]; omega) (by simp [hh]; omega)
  · have e : pre ++ (entryBytes x name extra stored ++ rest)
        = (pre ++ (headerBytes x name.length extra.length ++ (name ++ extra))) ++ (stored ++ rest) := by
      simp [entryBytes, List.append_assoc]
    rw [e]; exact slice_append _ _ _ _ _ (by simp [hh]; omega) (by simp [hh]; omega)


theorem entry_total_length (pre rest : List Byte) (x : FixedFields)
    (name extra stored : List Byte) :
    (pre ++ (entryBytes x name extra stored ++ rest)).length
      = pre.length + 30 + name.length + extra.length + stored.length + rest.length := by
  simp only [List.length_append, entryBytes_length]; omega

/-- An entry whose method is not 8, placed anywhere in a buffer, parses to its
header with the stored bytes as content. -/
theorem parse_entry_store (inflate : List Byte → Except Nat (List Byte)) (pre rest : List Byte)
    (x : FixedFields) (name extra stored : List Byte) (hx : x.wellFormed)
    (hn : name.length < 2 ^ 16) (he : extra.length < 2 ^ 16) (hm : x.method ≠ 8)
    (hu : x.uncompressedSize = stored.length) :
    parseLocalFileHeader inflate (pre ++ (entryBytes x name extra stored ++ rest)) pre.length
      = Except.ok (headerOf x name extra stored,
          pre.length + (entryBytes x name extra stored).length) := by
  obtain ⟨v0, v1, v2, v3, v4, v5, v6, v7, v8, v9, v10⟩ :=
    entry_values pre ((name ++ (extra ++ stored)) ++ rest) x name.length extra.length hx hn he
  have e : pre ++ (headerBytes x name.length extra.length ++ ((name ++ (extra ++ stored)) ++ rest))
      = pre ++ (entryBytes x name extra stored ++ rest) := by
    simp [entryBytes, List.append_assoc]
  rw [e] at v0 v1 v2 v3 v4 v5 v6 v7 v8 v9 v10
  obtain ⟨s1, s2, s3⟩ := entry_slices pre rest x name extra stored
  have hl := entry_total_length pre rest x name extra stored
  have hm2 : ¬ (8 = x.method) := fun h => hm h.symm
  rw [parse_eq]
  simp only [contentStart, headerAt, v0, v1, v2, v3, v4, v5, v6, v7, v8, v9, v10, hu, s1, s2, s3,
    hl, entryBytes_length]
  rw [if_neg (by omega), if_neg (by omega), if_pos hm, if_neg (by omega)]
  simp only [headerOf, hu, hm2, if_false]
  congr 2
  omega

/-- An entry whose method is 8, placed anywhere in a buffer: the decompressor
is applied to the bytes after the extra field, and its output is the
content. -/
theorem parse_entry_deflate (inflate : List Byte → Except Nat (List Byte)) (pre rest : List Byte)
    (x : FixedFields) (name extra stored : List Byte) (hx : x.wellFormed)
    (hn : name.length < 2 ^ 16) (he : extra.length < 2 ^ 16) (hm : x.method = 8)
    (hc : x.compressedSize = stored.length) :
    parseLocalFileHeader inflate (pre ++ (entryBytes x name extra stored ++ rest)) pre.length
      = match inflate stored with
        | Except.error c => Except.error (Error.flateError c)
        | Except.ok read => Except.ok (headerOf x name extra read,
            pre.length + (entryBytes x name extra stored).length) := by
  obtain ⟨v0, v1, v2, v3, v4, v5, v6, v7, v8, v9, v10⟩ :=
    entry_values pre ((name ++ (extra ++ stored)) ++ rest) x name.length extra.length hx hn he
  have e : pre ++ (headerBytes x name.length extra.length ++ ((name ++ (extra ++ stored)) ++ rest))
      = pre ++ (entryBytes x name extra stored ++ rest) := by
    simp [entryBytes, List.append_assoc]
  rw [e] at v0 v1 v2 v3 v4 v5 v6 v7 v8 v9 v10
  obtain ⟨s1, s2, s3⟩ := entry_slices pre rest x name extra stored
  have hl := entry_total_length pre rest x name extra stored
  rw [parse_eq]
  simp only [contentStart, headerAt, v0, v1, v2, v3, v4, v5, v6, v7, v8, v9, v10, hc, s1, s2, s3,
    hl, entryBytes_length]
  rw [if_neg (by omega), if_neg (by omega), if_neg (by rw [hm]; simp), if_neg (by omega)]
  have hp : pre.length + 30 + name.length + extra.length + stored.length
      = pre.length + (30 + name.length + extra.length + stored.length) := by omega
  cases inflate stored with
  | error c => rfl
  | ok read => simp only [headerOf, hc, hm, hp]



/-! ## Single entries -/

/-- C1: a buffer made of one entry whose raw compression method is not 8
(30-byte header with signature `0x04034B50`, `uncompressedSize` the length of
the content, the two length fields the actual lengths, then name, extra field
and content) parses at offset 0; the content returned is the content put in,
byte for byte, and the next offset is the length of the buffer. -/
theorem parse_store_entry (inflate : List Byte → Except Nat (List Byte)) (x : FixedFields)
    (name extra content : List Byte) (hx : x.wellFormed) (hn : name.length < 2 ^ 16)
    (he : extra.length < 2 ^ 16) (hm : x.method ≠ 8)
    (hu : x.uncompressedSize = content.length) :
    parseLocalFileHeader inflate (entryBytes x name extra content) 0
      = Except.ok (headerOf x name extra content, (entryBytes x name extra content).length) ∧
    (headerOf x name extra content).fileContentsByte = content := by
  have h := parse_entry_store inflate [] [] x name extra content hx hn he hm hu
  simp only [List.nil_append, List.append_nil, List.length_nil, Nat.zero_add] at h
  exact ⟨h, rfl⟩

/-- Witness of C1: the entry `a.txt` with method 0 and content `hi!`. -/
theorem parse_store_entry_witness :
    parseLocalFileHeader storedInflate
        (entryBytes ⟨20, 0, 0, 0x6000, 0x5A21, 0xdeadbeef, 3, 3⟩ (ascii "a.txt") [] (ascii "hi!")) 0
      = Except.ok (headerOf ⟨20, 0, 0, 0x6000, 0x5A21, 0xdeadbeef, 3, 3⟩ (ascii "a.txt") []
          (ascii "hi!"), 38) ∧
    (headerOf ⟨20, 0, 0, 0x6000, 0x5A21, 0xdeadbeef, 3, 3⟩ (ascii "a.txt") []
      (ascii "hi!")).fileContentsByte = ascii "hi!" :=
  parse_store_entry storedInflate ⟨20, 0, 0, 0x6000, 0x5A21, 0xdeadbeef, 3, 3⟩ (ascii "a.txt") []
    (ascii "hi!") (by decide) (by decide) (by decide) (by decide) (by decide)

/-- C2: a buffer made of one entry with method 8 whose stored bytes are
`deflate data`, with `compressedSize` their length and `uncompressedSize` the
length of `data`, parses at offset 0 to the content `data` when the
decompressor inverts `deflate` on `data`; the length of the content is the
declared `uncompressedSize`; and the decompressor is given exactly the
`compressedSize` bytes that follow the extra field: for any decompressor `g`
the result is what `g` returns on that slice, which is `deflate data`. -/
theorem parse_deflate_entry (inflate : List Byte → Except Nat (List Byte))
    (deflate : List Byte → List Byte) (x : FixedFields) (name extra data : List Byte)
    (hx : x.wellFormed) (hn : name.length < 2 ^ 16) (he : extra.length < 2 ^ 16)
    (hm : x.method = 8) (hc : x.compressedSize = (deflate data).length)
    (hu : x.uncompressedSize = data.length) (hinf : inflate (deflate data) = Except.ok data) :
    parseLocalFileHeader inflate (entryBytes x name extra (deflate data)) 0
      = Except.ok (headerOf x name extra data,
          (entryBytes x name extra (deflate data)).length) ∧
    (headerOf x name extra data).fileContentsByte = data ∧
    (headerOf x name extra data).fileContentsByte.length
      = (headerOf x name extra data).uncompressedSize ∧
    slice (entryBytes x name extra (deflate data)) (30 + name.length + extra.length)
      (30 + name.length + extra.length + x.compressedSize) = deflate data ∧
    ∀ g : List Byte → Except Nat (List Byte),
      parseLocalFileHeader g (entryBytes x name extra (deflate data)) 0
        = match g (slice (entryBytes x name extra (deflate data))
            (30 + name.length + extra.length)
            (30 + name.length + extra.length + x.compressedSize)) with
          | Except.error c => Except.error (Error.flateError c)
          | Except.ok read => Except.ok (headerOf x name extra read,
              (entryBytes x name extra (deflate data)).length) := by
  have hs : slice (entryBytes x name extra (deflate data)) (30 + name.length + extra.length)
      (30 + name.length + extra.length + x.compressedSize) = deflate data := by
    have h := (entry_slices [] [] x name extra (deflate data)).2.2
    simp only [List.nil_append, List.append_nil, List.length_nil, Nat.zero_add] at h
    rw [hc]; exact h
  have hg : ∀ g : List Byte → Except Nat (List Byte),
      parseLocalFileHeader g (entryBytes x name extra (deflate data)) 0
        = match g (deflate data) with
          | Except.error c => Except.error (Error.flateError c)
          | Except.ok read => Except.ok (headerOf x name extra read,
              (entryBytes x name extra (deflate data)).length) := by
    intro g
    have h := parse_entry_deflate g [] [] x name extra (deflate data) hx hn he hm hc
    simp only [List.nil_append, List.append_nil, List.length_nil, Nat.zero_add] at h
    exact h
  refine ⟨?_, rfl, ?_, hs, ?_⟩
  · rw [hg inflate, hinf]
  · simp only [headerOf, hu]
  · intro g; rw [hs]; exact hg g

/-- Witness of C2: the entry `b.txt` with method 8, whose stored bytes are the
raw-deflate stream of one stored block holding `hello`. -/
theorem parse_deflate_entry_witness :
    parseLocalFileHeader storedInflate
        (entryBytes ⟨20, 0, 8, 0x6000, 0x5A21, 0x3610a686, 10, 5⟩ (ascii "b.txt") []
          (storedDeflate (ascii "hello"))) 0
      = Except.ok (headerOf ⟨20, 0, 8, 0x6000, 0x5A21, 0x3610a686, 10, 5⟩ (ascii "b.txt") []
          (ascii "hello"), 45) :=
  (parse_deflate_entry storedInflate storedDeflate ⟨20, 0, 8, 0x6000, 0x5A21, 0x3610a686, 10, 5⟩
    (ascii "b.txt") [] (ascii "hello") (by decide) (by decide) (by decide) (by decide)
    (by decide) (by decide) rfl).1



/-! ## The contract of the readers -/

theorem getD_eq_get (bs : List Byte) (k : Nat) (h : k < bs.length) :
    bs.getD k 0 = bs.get ⟨k, h⟩ := by
  rw [List.getD_eq_getElem _ _ h]; rfl

/-- The two integer readers of the first family (sums in the natural
numbers): the error is returned exactly when `offset + 2` (`offset + 4`) is
past the end of the buffer, and otherwise the little-endian value at `offset`
is returned with the offset after it. -/
theorem readUint_nat (bs : List Byte) (offset : Nat) :
    ((readUint16 bs offset).2.2 = some Error.errOverranBuffer ↔ offset + 2 > bs.length) ∧
    (∀ h : offset + 2 ≤ bs.length,
      readUint16 bs offset
        = ((bs.get ⟨offset, by omega⟩).val + 256 * (bs.get ⟨offset + 1, by omega⟩).val,
            offset + 2, none)) ∧
    ((readUint32 bs offset).2.2 = some Error.errOverranBuffer ↔ offset + 4 > bs.length) ∧
    (∀ h : offset + 4 ≤ bs.length,
      readUint32 bs offset
        = ((bs.get ⟨offset, by omega⟩).val + 2 ^ 8 * (bs.get ⟨offset + 1, by omega⟩).val
            + 2 ^ 16 * (bs.get ⟨offset + 2, by omega⟩).val
            + 2 ^ 24 * (bs.get ⟨offset + 3, by omega⟩).val, offset + 4, none)) := by
  refine ⟨?_, ?_, ?_, ?_⟩
  · rw [readUint16_eq]
    by_cases h : bs.length < offset + 2
    · simp [h]
    · simp [h]
  · intro h
    rw [readUint16_eq, if_neg (by omega), u16At, getD_eq_get bs offset (by omega),
      getD_eq_get bs (offset + 1) (by omega)]
    rfl
  · rw [readUint32_eq]
    by_cases h : bs.length < offset + 4
    · simp [h]
    · simp [h]
  · intro h
    rw [readUint32_eq, if_neg (by omega), u32At, getD_eq_get bs offset (by omega),
      getD_eq_get bs (offset + 1) (by omega), getD_eq_get bs (offset + 2) (by omega),
      getD_eq_get bs (offset + 3) (by omega)]

theorem slice_eq_ofFn (bs : List Byte) (offset n : Nat) (h : offset + n ≤ bs.length) :
    slice bs offset (offset + n)
      = List.ofFn (fun k : Fin n => bs.get ⟨offset + k.val, by have := k.isLt; omega⟩) := by
  apply List.ext_get
  · rw [slice_length _ _ _ h, List.length_ofFn]; omega
  · intro k h1 h2
    simp [slice]

/-- The byte reader of the first family (sums in the natural numbers): the
error is returned exactly when `offset + n` is past the end of the buffer, and
otherwise the `n` bytes from `offset` are returned with the offset after them;
`readString` gives the same results, the bytes twice. -/
theorem readBytes_nat (bs : List Byte) (offset n : Nat) :
    ((readBytes bs offset n).2.2 = some Error.errOverranBuffer ↔ offset + n > bs.length) ∧
    (∀ h : offset + n ≤ bs.length,
      readBytes bs offset n
        = (List.ofFn (fun k : Fin n => bs.get ⟨offset + k.val, by have := k.isLt; omega⟩),
            offset + n, none)) ∧
    readString bs offset n
      = ((readBytes bs offset n).1, (readBytes bs offset n).1, (readBytes bs offset n).2.1,
          (readBytes bs offset n).2.2) := by
  refine ⟨?_, ?_, rfl⟩
  · unfold readBytes
    by_cases h : offset + n > bs.length
    · simp [h]
    · simp [h]
  · intro h
    unfold readBytes
    simp only [gt_iff_lt]
    rw [if_neg (by omega), slice_eq_ofFn bs offset n h]

/-! ## The parser -/

/-- A successful parse, read off the closed form: the signature matched, the
fixed block, the name and the extra field lie in the buffer, and the header
is the one made of the values at the fixed positions. -/
theorem parse_ok_inv (inflate : List Byte → Except Nat (List Byte)) (bs : List Byte)
    (start : Nat) (lfh : localFileHeader) (next : Nat)
    (hok : parseLocalFileHeader inflate bs start = Except.ok (lfh, next)) :
    start + 4 ≤ bs.length ∧ u32At bs start = 0x04034b50 ∧ contentStart bs start ≤ bs.length ∧
    lfh = headerAt bs start lfh.fileContentsByte := by
  rw [parse_eq] at hok
  by_cases h1 : bs.length < start + 4 ∨ u32At bs start ≠ 0x04034b50
  · rw [if_pos h1] at hok; cases hok
  · rw [if_neg h1] at hok
    by_cases h2 : bs.length < contentStart bs start ∨ bs.length < start + 30
    · rw [if_pos h2] at hok; cases hok
    · rw [if_neg h2] at hok
      have h1a : start + 4 ≤ bs.length := by
        by_contra hc; exact h1 (Or.inl (by omega))
      have h1b : u32At bs start = 0x04034b50 := by
        by_contra hc; exact h1 (Or.inr hc)
      have h2a : contentStart bs start ≤ bs.length := by
        by_contra hc; exact h2 (Or.inl (by omega))
      refine ⟨h1a, h1b, h2a, ?_⟩
      by_cases h3 : u16At bs (start + 8) ≠ 8
      · rw [if_pos h3] at hok
        by_cases h4 : bs.length < contentStart bs start + u32At bs (start + 22)
        · rw [if_pos h4] at hok; cases hok
        · rw [if_neg h4] at hok
          cases hok; rfl
      · rw [if_neg h3] at hok
        by_cases h4 : bs.length < contentStart bs start + u32At bs (start + 18)
        · rw [if_pos h4] at hok; cases hok
        · rw [if_neg h4] at hok
          cases hi : inflate (slice bs (contentStart bs start)
              (contentStart bs start + u32At bs (start + 18))) with
          | error c => rw [hi] at hok; cases hok
          | ok read => rw [hi] at hok; cases hok; rfl

/-- C10: when `parseLocalFileHeader(bs, start)` succeeds, the fields of the
header are the little-endian values at the fixed positions of the layout:
signature at `start` (and it is `0x04034B50`), version at `start+4`, bitflag
at `start+6`, crc32 at `start+14`, compressedSize at `start+18`,
uncompressedSize at `start+22`, lastModified decoded from the time word at
`start+10` and the date word at `start+12`, fileName the `fileNameLength`
(at `start+26`) bytes from `start+30`, extraField the `extraFieldLength` (at
`start+28`) bytes after the name; all these positions lie inside the
buffer. -/
theorem parse_fields (inflate : List Byte → Except Nat (List Byte)) (bs : List Byte)
    (start : Nat) (lfh : localFileHeader) (next : Nat)
    (hok : parseLocalFileHeader inflate bs start = Except.ok (lfh, next)) :
    lfh.signature = u32At bs start ∧ lfh.signature = 0x04034b50 ∧
    lfh.version = u16At bs (start + 4) ∧ lfh.bitflag = u16At bs (start + 6) ∧
    lfh.crc32 = u32At bs (start + 14) ∧ lfh.compressedSize = u32At bs (start + 18) ∧
    lfh.uncompressedSize = u32At bs (start + 22) ∧
    lfh.lastModified = msdosTimeToGoTime (u16At bs (start + 12)) (u16At bs (start + 10)) ∧
    lfh.fileName = slice bs (start + 30) (start + 30 + u16At bs (start + 26)) ∧
    lfh.fileName.length = u16At bs (start + 26) ∧
    lfh.extraField = slice bs (start + 30 + u16At bs (start + 26))
      (start + 30 + u16At bs (start + 26) + u16At bs (start + 28)) ∧
    lfh.extraField.length = u16At bs (start + 28) ∧
    start + 30 + u16At bs (start + 26) + u16At bs (start + 28) ≤ bs.length := by
  obtain ⟨_, h2, h3, h4⟩ := parse_ok_inv inflate bs start lfh next hok
  unfold contentStart at h3
  have e1 : lfh.signature = u32At bs start := by rw [h4]; rfl
  have e2 : lfh.fileName = slice bs (start + 30) (start + 30 + u16At bs (start + 26)) := by
    rw [h4]; rfl
  have e3 : lfh.extraField = slice bs (start + 30 + u16At bs (start + 26))
      (start + 30 + u16At bs (start + 26) + u16At bs (start + 28)) := by rw [h4]; rfl
  refine ⟨e1, e1.trans h2, by rw [h4]; rfl, by rw [h4]; rfl, by rw [h4]; rfl, by rw [h4]; rfl,
    by rw [h4]; rfl, by rw [h4]; rfl, e2, ?_, e3, ?_, h3⟩
  · rw [e2, slice_length _ _ _ (by omega)]; omega
  · rw [e3, slice_length _ _ _ (by omega)]; omega



/-- Witness of C10: the entry `a.txt` placed at offset 2 of a buffer. -/
theorem parse_fields_witness :
    (headerOf ⟨20, 0, 0, 0x6000, 0x5A21, 0xdeadbeef, 3, 3⟩ (ascii "a.txt") []
        (ascii "hi!")).signature = 0x04034b50 ∧
    (headerOf ⟨20, 0, 0, 0x6000, 0x5A21, 0xdeadbeef, 3, 3⟩ (ascii "a.txt") []
        (ascii "hi!")).version
      = u16At ([0, 0] ++ entryBytes ⟨20, 0, 0, 0x6000, 0x5A21, 0xdeadbeef, 3, 3⟩ (ascii "a.txt") []
          (ascii "hi!")) (2 + 4) :=
  have h := parse_fields storedInflate
    ([0, 0] ++ entryBytes ⟨20, 0, 0, 0x6000, 0x5A21, 0xdeadbeef, 3, 3⟩ (ascii "a.txt") []
      (ascii "hi!")) 2
    (headerOf ⟨20, 0, 0, 0x6000, 0x5A21, 0xdeadbeef, 3, 3⟩ (ascii "a.txt") [] (ascii "hi!")) 40
    (by rfl)
  ⟨h.2.1, h.2.2.1⟩

/-- The first four bytes of a buffer whose 32-bit value at 0 is the
signature. -/
theorem signature_first_bytes (bs : List Byte) (h4 : 4 ≤ bs.length)
    (hs : u32At bs 0 = 0x04034b50) :
    ∃ rest, bs = 0x50 :: 0x4B :: 0x03 :: 0x04 :: rest := by
  match bs, h4 with
  | b0 :: b1 :: b2 :: b3 :: rest, _ =>
    refine ⟨rest, ?_⟩
    have hh : b0.val + 2 ^ 8 * b1.val + 2 ^ 16 * b2.val + 2 ^ 24 * b3.val = 0x04034b50 := hs
    have l0 := b0.isLt
    have l1 := b1.isLt
    have l2 := b2.isLt
    have l3 := b3.isLt
    norm_num at hh
    have e0 : b0 = 0x50 := Fin.ext (by show b0.val = 0x50; omega)
    have e1 : b1 = 0x4B := Fin.ext (by show b1.val = 0x4B; omega)
    have e2 : b2 = 0x03 := Fin.ext (by show b2.val = 0x03; omega)
    have e3 : b3 = 0x04 := Fin.ext (by show b3.val = 0x04; omega)
    rw [e0, e1, e2, e3]

/-- The parser of the first family fails with `errNotZip` when the value of
its first read is not the signature, and at offset 0 on every buffer that
does not begin with the signature bytes. -/
theorem parse_errNotZip_nat (inflate : List Byte → Except Nat (List Byte)) (bs : List Byte)
    (start : Nat) :
    ((readUint32 bs start).1 ≠ 0x04034b50 →
      parseLocalFileHeader inflate bs start = Except.error Error.errNotZip) ∧
    ((∀ rest, bs ≠ 0x50 :: 0x4B :: 0x03 :: 0x04 :: rest) →
      parseLocalFileHeader inflate bs 0 = Except.error Error.errNotZip) := by
  constructor
  · intro h
    unfold parseLocalFileHeader
    simp only [h, ne_eq, not_false_eq_true, if_true]
  · intro h
    rw [parse_eq, if_pos]
    by_contra hc
    obtain ⟨rest, hr⟩ := signature_first_bytes bs (by omega) (by
      by_contra hs; exact hc (Or.inr hs))
    exact h rest hr

/-- Counterexample to C4: a 4-byte buffer that holds the signature of the
central directory is shorter than 30 bytes, and parsing it fails with
`errNotZip`, not with `errOverranBuffer`. -/
theorem parse_short_counterexample :
    (le32 0x02014b50).length < 30 ∧
    parseLocalFileHeader storedInflate (le32 0x02014b50) 0 = Except.error Error.errNotZip ∧
    parseLocalFileHeader storedInflate (le32 0x02014b50) 0
      ≠ Except.error Error.errOverranBuffer :=
  ⟨by decide, rfl, fun h => by cases h⟩

/-- C4, amended: for every buffer shorter than 30 bytes that begins with the
signature bytes `50 4B 03 04`, `parseLocalFileHeader(buffer, 0)` fails with
`errOverranBuffer`. -/
theorem parse_short (inflate : List Byte → Except Nat (List Byte)) (bs rest : List Byte)
    (hsig : bs = 0x50 :: 0x4B :: 0x03 :: 0x04 :: rest) (hlen : bs.length < 30) :
    parseLocalFileHeader inflate bs 0 = Except.error Error.errOverranBuffer := by
  have h4 : 4 ≤ bs.length := by rw [hsig]; simp
  have hs : u32At bs 0 = 0x04034b50 := by
    have e : u32At (0x50 :: 0x4B :: 0x03 :: 0x04 :: rest) 0 = u32At [0x50, 0x4B, 0x03, 0x04] 0 :=
      rfl
    rw [hsig, e]; decide
  rw [parse_eq, if_neg (by rw [not_or]; exact ⟨by omega, fun h => h hs⟩),
    if_pos (Or.inr (by omega))]

/-- Witness of C4, amended: the signature followed by two bytes. -/
theorem parse_short_witness :
    parseLocalFileHeader storedInflate [0x50, 0x4B, 0x03, 0x04, 0x14, 0x00] 0
      = Except.error Error.errOverranBuffer :=
  parse_short storedInflate [0x50, 0x4B, 0x03, 0x04, 0x14, 0x00] [0x14, 0x00] rfl (by decide)

/-! ## The walk of the list command -/

/-- Counterexample to C6: on the empty buffer the parse at offset 0 fails with
`errNotZip`, and the walk ends normally (its loop is not entered). -/
theorem walk_errNotZip_counterexample :
    parseLocalFileHeader storedInflate [] 0 = Except.error Error.errNotZip ∧
    listRun storedInflate [] = { printed := [], outcome := WalkEnd.finished 0 } :=
  ⟨rfl, rfl⟩

/-- C6, amended: for every non-empty buffer on which
`parseLocalFileHeader(buffer, 0)` fails with `errNotZip`, the walk of the list
command fails as a whole, with that error, and prints no header. -/
theorem walk_errNotZip (inflate : List Byte → Except Nat (List Byte)) (bs : List Byte)
    (hne : bs ≠ []) (herr : parseLocalFileHeader inflate bs 0 = Except.error Error.errNotZip) :
    listRun inflate bs = { printed := [], outcome := WalkEnd.panicError Error.errNotZip } := by
  have hl : 0 < bs.length := List.length_pos.mpr hne
  unfold listRun
  rw [walkLoop, if_pos hl, herr]
  simp

/-- Witness of C6, amended: a buffer that begins with the signature of the
central directory. -/
theorem walk_errNotZip_witness :
    listRun storedInflate (le32 0x02014b50 ++ le32 0x04034b50)
      = { printed := [], outcome := WalkEnd.panicError Error.errNotZip } :=
  walk_errNotZip storedInflate (le32 0x02014b50 ++ le32 0x04034b50) (by decide) rfl



/-- C3, at the scenario of the specification: the buffer made of the entry
`a.txt` (method 0, content `hi`) and the entry `b.txt` (method 8, content
`hello`). Both entries parse, the first to the content `hi` with next offset
37 and the second, from there, to the content `hello` with next offset 82,
the length of the buffer; but the walk stops in its first iteration, at the
index expression `lfh.fileContentsByte[2]` on a content of 2 bytes, and
prints no header. -/
theorem walk_scenario_short_content :
    parseLocalFileHeader storedInflate
        (entryBytes ⟨20, 0, 0, 0x6000, 0x5A21, 0xd8932aac, 2, 2⟩ (ascii "a.txt") [] (ascii "hi")
          ++ entryBytes ⟨20, 0, 8, 0x6000, 0x5A21, 0x3610a686, 10, 5⟩ (ascii "b.txt") []
            (storedDeflate (ascii "hello"))) 0
      = Except.ok (headerOf ⟨20, 0, 0, 0x6000, 0x5A21, 0xd8932aac, 2, 2⟩ (ascii "a.txt") []
          (ascii "hi"), 37) ∧
    parseLocalFileHeader storedInflate
        (entryBytes ⟨20, 0, 0, 0x6000, 0x5A21, 0xd8932aac, 2, 2⟩ (ascii "a.txt") [] (ascii "hi")
          ++ entryBytes ⟨20, 0, 8, 0x6000, 0x5A21, 0x3610a686, 10, 5⟩ (ascii "b.txt") []
            (storedDeflate (ascii "hello"))) 37
      = Except.ok (headerOf ⟨20, 0, 8, 0x6000, 0x5A21, 0x3610a686, 10, 5⟩ (ascii "b.txt") []
          (ascii "hello"), 82) ∧
    listRun storedInflate
        (entryBytes ⟨20, 0, 0, 0x6000, 0x5A21, 0xd8932aac, 2, 2⟩ (ascii "a.txt") [] (ascii "hi")
          ++ entryBytes ⟨20, 0, 8, 0x6000, 0x5A21, 0x3610a686, 10, 5⟩ (ascii "b.txt") []
            (storedDeflate (ascii "hello")))
      = { printed := [], outcome := WalkEnd.panicIndex 2 2 } :=
  ⟨by rfl, by rfl, by rfl⟩

/-- C7, at a buffer made of the entry `a.txt` (content `hi!`) followed by the
first two bytes `50 4B` of a next entry: the walk prints the header of
`a.txt` and ends normally at offset 38, as at the end of the entries; no
buffer-overrun error is raised. -/
theorem walk_truncated_signature :
    listRun storedInflate
        (entryBytes ⟨20, 0, 0, 0x6000, 0x5A21, 0xdeadbeef, 3, 3⟩ (ascii "a.txt") [] (ascii "hi!")
          ++ [0x50, 0x4B])
      = { printed := [headerOf ⟨20, 0, 0, 0x6000, 0x5A21, 0xdeadbeef, 3, 3⟩ (ascii "a.txt") []
            (ascii "hi!")],
          outcome := WalkEnd.finished 38 } ∧
    parseLocalFileHeader storedInflate
        (entryBytes ⟨20, 0, 0, 0x6000, 0x5A21, 0xdeadbeef, 3, 3⟩ (ascii "a.txt") [] (ascii "hi!")
          ++ [0x50, 0x4B]) 38
      = Except.error Error.errNotZip ∧
    readUint32
        (entryBytes ⟨20, 0, 0, 0x6000, 0x5A21, 0xdeadbeef, 3, 3⟩ (ascii "a.txt") [] (ascii "hi!")
          ++ [0x50, 0x4B]) 38
      = (0, 0, some Error.errOverranBuffer) :=
  ⟨by rfl, by rfl, by rfl⟩



/-! ## Walks over archives -/

theorem Entry.bytes_length (e : Entry) :
    e.bytes.length = 30 + e.name.length + e.extra.length + e.stored.length :=
  entryBytes_length _ _ _ _

/-- A valid entry, placed anywhere in a buffer, parses to its header; the next
offset is the offset after the entry. -/
theorem parse_valid_entry (inflate : List Byte → Except Nat (List Byte)) (pre rest : List Byte)
    (e : Entry) (hv : e.valid inflate) :
    parseLocalFileHeader inflate (pre ++ (e.bytes ++ rest)) pre.length
      = Except.ok (e.header, pre.length + e.bytes.length) := by
  obtain ⟨hx, hn, he, hc⟩ := hv
  rcases hc with ⟨hm, hu, hcs⟩ | ⟨hm, hcz, hinf⟩
  · have h := parse_entry_store inflate pre rest e.fields e.name e.extra e.stored hx hn he hm hu
    rw [Entry.bytes, Entry.header, hcs]; exact h
  · have h := parse_entry_deflate inflate pre rest e.fields e.name e.extra e.stored hx hn he hm hcz
    rw [hinf] at h
    exact h

/-- The walk over valid entries whose contents have at least 3 bytes: it
prints their headers in order and goes on from the offset after the last of
them, one unit of fuel used per entry. -/
theorem walkLoop_entries (inflate : List Byte → Except Nat (List Byte)) (es : List Entry)
    (hv : ∀ e ∈ es, e.valid inflate) (h3 : ∀ e ∈ es, 3 ≤ e.content.length) :
    ∀ (pre rest : List Byte) (fuel : Nat),
      walkLoop inflate (pre ++ (archive es ++ rest)) (es.length + fuel) pre.length
        = (walkLoop inflate (pre ++ (archive es ++ rest)) fuel
            (pre.length + (archive es).length)).after (es.map Entry.header) := by
  induction es with
  | nil =>
    intro pre rest fuel
    simp [archive, WalkResult.after]
  | cons e es ih =>
    intro pre rest fuel
    have hve := hv e (List.mem_cons_self _ _)
    have h3e : 3 ≤ e.header.fileContentsByte.length := h3 e (List.mem_cons_self _ _)
    have hbuf : pre ++ (archive (e :: es) ++ rest) = pre ++ (e.bytes ++ (archive es ++ rest)) := by
      simp [archive, List.append_assoc]
    have hbuf2 : pre ++ (e.bytes ++ (archive es ++ rest)) = (pre ++ e.bytes) ++ (archive es ++ rest) := by
      simp [List.append_assoc]
    have hp := parse_valid_entry inflate pre (archive es ++ rest) e hve
    have hlt : pre.length < (pre ++ (e.bytes ++ (archive es ++ rest))).length := by
      simp only [List.length_append, Entry.bytes_length]; omega
    have hfuel : (e :: es).length + fuel = (es.length + fuel) + 1 := by
      simp only [List.length_cons]; omega
    rw [hbuf, hfuel, walkLoop, if_pos hlt, hp]
    simp only
    rw [if_neg (by omega), if_neg (by omega), if_neg (by omega)]
    have ih2 := ih (fun a ha => hv a (List.mem_cons_of_mem _ ha))
      (fun a ha => h3 a (List.mem_cons_of_mem _ ha)) (pre ++ e.bytes) rest fuel
    rw [List.length_append] at ih2
    rw [hbuf2, ih2]
    simp [WalkResult.after, archive, Nat.add_assoc]



theorem getD_append_left (pre bs : List Byte) (k : Nat) :
    (pre ++ bs).getD (pre.length + k) 0 = bs.getD k 0 := by
  rw [List.getD_append_right _ _ _ _ (by omega), Nat.add_sub_cancel_left]

theorem u16At_append_left (pre bs : List Byte) (k : Nat) :
    u16At (pre ++ bs) (pre.length + k) = u16At bs k := by
  unfold u16At
  rw [Nat.add_assoc, getD_append_left, getD_append_left]

theorem u32At_append_left (pre bs : List Byte) (k : Nat) :
    u32At (pre ++ bs) (pre.length + k) = u32At bs k := by
  unfold u32At
  rw [Nat.add_assoc pre.length k 1, Nat.add_assoc pre.length k 2, Nat.add_assoc pre.length k 3,
    getD_append_left, getD_append_left, getD_append_left, getD_append_left]

theorem slice_append_left (pre bs : List Byte) (lo hi : Nat) :
    slice (pre ++ bs) (pre.length + lo) (pre.length + hi) = slice bs lo hi := by
  unfold slice
  rw [List.take_append, List.drop_append]

/-- The parser is position-independent: with `pre` put before the buffer and
the start moved by its length, the result is the same, the next offset moved
by the same length. -/
theorem parse_append_left (inflate : List Byte → Except Nat (List Byte)) (pre bs : List Byte)
    (start : Nat) :
    parseLocalFileHeader inflate (pre ++ bs) (pre.length + start)
      = (parseLocalFileHeader inflate bs start).map (fun r => (r.1, pre.length + r.2)) := by
  rw [parse_eq, parse_eq]
  simp only [contentStart, headerAt, Nat.add_assoc, u16At_append_left, u32At_append_left,
    slice_append_left, List.length_append, Nat.add_lt_add_iff_left]
  split_ifs <;> first | rfl | (cases inflate _ <;> rfl)



theorem getD_take (l : List Byte) (m k : Nat) (h : k < m) :
    (l.take m).getD k 0 = l.getD k 0 := by
  simp [List.getElem?_take, h]

theorem u32At_take (l : List Byte) (m : Nat) (h : 4 ≤ m) : u32At (l.take m) 0 = u32At l 0 := by
  unfold u32At
  rw [getD_take _ _ _ (by omega), getD_take _ _ _ (by omega), getD_take _ _ _ (by omega),
    getD_take _ _ _ (by omega)]

/-- The values of the header fields of an entry that stands at the start of a
buffer. -/
theorem entry_values_zero (tl : List Byte) (x : FixedFields) (n e : Nat) (hx : x.wellFormed)
    (hn : n < 2 ^ 16) (he : e < 2 ^ 16) :
    u32At (headerBytes x n e ++ tl) 0 = 0x04034b50 ∧
    u16At (headerBytes x n e ++ tl) 8 = x.method ∧
    u32At (headerBytes x n e ++ tl) 18 = x.compressedSize ∧
    u32At (headerBytes x n e ++ tl) 22 = x.uncompressedSize ∧
    u16At (headerBytes x n e ++ tl) 26 = n ∧
    u16At (headerBytes x n e ++ tl) 28 = e := by
  have h := entry_values [] tl x n e hx hn he
  simp only [List.nil_append, List.length_nil, Nat.zero_add] at h
  exact ⟨h.1, h.2.2.2.1, h.2.2.2.2.2.2.2.1, h.2.2.2.2.2.2.2.2.1, h.2.2.2.2.2.2.2.2.2.1,
    h.2.2.2.2.2.2.2.2.2.2⟩

/-- A valid entry cut after at least 4 bytes, and before its end, fails to
parse with `errOverranBuffer`. -/
theorem parse_truncated (inflate : List Byte → Except Nat (List Byte)) (e : Entry) (m : Nat)
    (hv : e.valid inflate) (h4 : 4 ≤ m) (hm : m < e.bytes.length) :
    parseLocalFileHeader inflate (e.bytes.take m) 0 = Except.error Error.errOverranBuffer := by
  obtain ⟨hx, hn, he, hc⟩ := hv
  have hbl := e.bytes_length
  have hlen : (e.bytes.take m).length = m := by
    rw [List.length_take]; omega
  have hs : u32At (e.bytes.take m) 0 = 0x04034b50 := by
    rw [u32At_take _ _ h4]
    exact (entry_values_zero _ e.fields _ _ hx hn he).1
  rw [parse_eq, if_neg (not_or.mpr ⟨by omega, not_not.mpr hs⟩)]
  by_cases h30 : m < 30
  · rw [if_pos (Or.inr (by omega))]
  · have htake : e.bytes.take m
        = headerBytes e.fields e.name.length e.extra.length
          ++ (e.name ++ (e.extra ++ e.stored)).take (m - 30) := by
      unfold Entry.bytes entryBytes
      rw [List.take_append_eq_append_take, headerBytes_length,
        List.take_of_length_le (by rw [headerBytes_length]; omega)]
    obtain ⟨_, v8, v18, v22, v26, v28⟩ :=
      entry_values_zero ((e.name ++ (e.extra ++ e.stored)).take (m - 30)) e.fields _ _ hx hn he
    rw [← htake] at v8 v18 v22 v26 v28
    simp only [contentStart, Nat.zero_add, v8, v18, v22, v26, v28, hlen]
    by_cases hcs : m < 30 + e.name.length + e.extra.length
    · rw [if_pos (Or.inl hcs)]
    · rw [if_neg (by omega)]
      rcases hc with ⟨hme, hu, _⟩ | ⟨hme, hcz, _⟩
      · rw [if_pos hme, if_pos (by omega)]
      · rw [if_neg (not_not.mpr hme), if_pos (by omega)]



/-- The loop is left when the offset has reached the end of the buffer. -/
theorem walkLoop_at_end (inflate : List Byte → Except Nat (List Byte)) (f : List Byte)
    (fuel : Nat) :
    walkLoop inflate f (fuel + 1) f.length
      = { printed := [], outcome := WalkEnd.finished f.length } := by
  rw [walkLoop, if_neg (Nat.lt_irrefl _)]

/-- The loop is left by `break` when the parse fails with `errNotZip` at an
offset other than 0. -/
theorem walkLoop_break (inflate : List Byte → Except Nat (List Byte)) (f : List Byte)
    (fuel pos : Nat) (hpos : 0 < pos)
    (herr : parseLocalFileHeader inflate f pos = Except.error Error.errNotZip) :
    walkLoop inflate f (fuel + 1) pos = { printed := [], outcome := WalkEnd.finished pos } := by
  rw [walkLoop]
  by_cases hlt : pos < f.length
  · rw [if_pos hlt, herr]
    simp [hpos]
  · rw [if_neg hlt]

/-- The call `check(err)` panics when the parse fails inside the buffer with an
error other than `errNotZip`. -/
theorem walkLoop_panic (inflate : List Byte → Except Nat (List Byte)) (f : List Byte)
    (fuel pos : Nat) (e : Error) (hlt : pos < f.length) (hne : e ≠ Error.errNotZip)
    (herr : parseLocalFileHeader inflate f pos = Except.error e) :
    walkLoop inflate f (fuel + 1) pos = { printed := [], outcome := WalkEnd.panicError e } := by
  rw [walkLoop, if_pos hlt, herr]
  simp [hne]

/-- At offset 0 a buffer that does not begin with the signature bytes fails to
parse with `errNotZip`. -/
theorem parse_not_signature (inflate : List Byte → Except Nat (List Byte)) (bs : List Byte)
    (h : ∀ rest, bs ≠ 0x50 :: 0x4B :: 0x03 :: 0x04 :: rest) :
    parseLocalFileHeader inflate bs 0 = Except.error Error.errNotZip := by
  rw [parse_eq, if_pos]
  by_contra hc
  obtain ⟨rest, hr⟩ := signature_first_bytes bs (by omega) (by
    by_contra hs; exact hc (Or.inr hs))
  exact h rest hr

theorem archive_length_ge (es : List Entry) : 30 * es.length ≤ (archive es).length := by
  induction es with
  | nil => simp [archive]
  | cons e es ih =>
    simp only [archive, List.length_append, List.length_cons, Entry.bytes_length]
    omega

/-- The walk of the list command over a buffer that begins with valid entries
whose contents have at least 3 bytes: the headers of the entries are printed
in order, and the walk goes on at the offset after the last entry with at
least one unit of fuel. -/
theorem listRun_entries (inflate : List Byte → Except Nat (List Byte)) (es : List Entry)
    (rest : List Byte) (hv : ∀ e ∈ es, e.valid inflate) (h3 : ∀ e ∈ es, 3 ≤ e.content.length) :
    ∃ fuel, listRun inflate (archive es ++ rest)
      = (walkLoop inflate (archive es ++ rest) (fuel + 1) (archive es).length).after
          (es.map Entry.header) := by
  have hl := archive_length_ge es
  refine ⟨(archive es ++ rest).length - es.length, ?_⟩
  have h := walkLoop_entries inflate es hv h3 [] rest
    ((archive es ++ rest).length - es.length + 1)
  simp only [List.nil_append, List.length_nil, Nat.zero_add] at h
  rw [← h, listRun]
  congr 1
  rw [List.length_append]
  omega

/-- The good case of the walk: `N` valid entries whose contents have at least
3 bytes, followed by nothing or (for `N >= 1`) by bytes that do not begin
with the signature; the walk prints the `N` headers in order and ends
normally at the offset after the last entry. -/
theorem listRun_archive (inflate : List Byte → Except Nat (List Byte)) (es : List Entry)
    (trailing : List Byte) (hv : ∀ e ∈ es, e.valid inflate)
    (h3 : ∀ e ∈ es, 3 ≤ e.content.length)
    (ht : trailing = [] ∨
      (es ≠ [] ∧ ∀ rest, trailing ≠ 0x50 :: 0x4B :: 0x03 :: 0x04 :: rest)) :
    listRun inflate (archive es ++ trailing)
      = { printed := es.map Entry.header,
          outcome := WalkEnd.finished (archive es).length } := by
  obtain ⟨fuel, hf⟩ := listRun_entries inflate es trailing hv h3
  rw [hf]
  rcases ht with ht | ⟨hne, ht⟩
  · subst ht
    have h := walkLoop_at_end inflate (archive es ++ []) fuel
    rw [List.append_nil] at h ⊢
    rw [h]; simp [WalkResult.after]
  · have hpos : 0 < (archive es).length := by
      have := archive_length_ge es
      have : 0 < es.length := List.length_pos.mpr hne
      omega
    have hp := parse_append_left inflate (archive es) trailing 0
    rw [parse_not_signature inflate trailing ht, Nat.add_zero] at hp
    rw [walkLoop_break inflate _ fuel _ hpos hp]
    simp [WalkResult.after]

/-- The walk over valid entries (contents of at least 3 bytes) followed by a
next valid entry cut after at least 4 of its bytes: the headers before the
cut are printed and the walk fails with `errOverranBuffer`. -/
theorem listRun_truncated (inflate : List Byte → Except Nat (List Byte)) (es : List Entry)
    (next : Entry) (m : Nat) (hv : ∀ e ∈ es, e.valid inflate)
    (h3 : ∀ e ∈ es, 3 ≤ e.content.length) (hn : next.valid inflate) (h4 : 4 ≤ m)
    (hm : m < next.bytes.length) :
    listRun inflate (archive es ++ next.bytes.take m)
      = { printed := es.map Entry.header,
          outcome := WalkEnd.panicError Error.errOverranBuffer } := by
  obtain ⟨fuel, hf⟩ := listRun_entries inflate es (next.bytes.take m) hv h3
  rw [hf]
  have hp := parse_append_left inflate (archive es) (next.bytes.take m) 0
  rw [parse_truncated inflate next m hn h4 hm, Nat.add_zero] at hp
  have hlt : (archive es).length < (archive es ++ next.bytes.take m).length := by
    rw [List.length_append, List.length_take]; omega
  rw [walkLoop_panic inflate _ fuel _ _ hlt (by decide) hp]
  simp [WalkResult.after]

/-- The walk over at least one valid entry (contents of at least 3 bytes)
followed by 1 to 3 bytes, whatever they are: the headers are printed and the
walk ends normally, the failed read of the signature being taken for a
signature that does not match. -/
theorem listRun_short_tail (inflate : List Byte → Except Nat (List Byte)) (es : List Entry)
    (tail : List Byte) (hv : ∀ e ∈ es, e.valid inflate)
    (h3 : ∀ e ∈ es, 3 ≤ e.content.length) (hne : es ≠ []) (ht : tail.length < 4) :
    listRun inflate (archive es ++ tail)
      = { printed := es.map Entry.header,
          outcome := WalkEnd.finished (archive es).length } :=
  listRun_archive inflate es tail hv h3
    (Or.inr ⟨hne, fun rest h => by rw [h] at ht; simp only [List.length_cons] at ht; omega⟩)



/-! ## The next offset, the method and the bounds of the content -/

/-- A successful parse in full: besides `parse_ok_inv`, the content and the
next offset on each of the two paths. -/
theorem parse_ok_paths (inflate : List Byte → Except Nat (List Byte)) (bs : List Byte)
    (start : Nat) (lfh : localFileHeader) (next : Nat)
    (hok : parseLocalFileHeader inflate bs start = Except.ok (lfh, next)) :
    (u16At bs (start + 8) ≠ 8 →
      next = contentStart bs start + u32At bs (start + 22) ∧ next ≤ bs.length ∧
      lfh.fileContentsByte = slice bs (contentStart bs start)
        (contentStart bs start + u32At bs (start + 22)) ∧
      lfh.fileContents = lfh.fileContentsByte) ∧
    (u16At bs (start + 8) = 8 →
      next = contentStart bs start + u32At bs (start + 18) ∧ next ≤ bs.length ∧
      inflate (slice bs (contentStart bs start)
        (contentStart bs start + u32At bs (start + 18))) = Except.ok lfh.fileContentsByte ∧
      lfh.fileContents = lfh.fileContentsByte) := by
  rw [parse_eq] at hok
  by_cases h1 : bs.length < start + 4 ∨ u32At bs start ≠ 0x04034b50
  · rw [if_pos h1] at hok; cases hok
  · rw [if_neg h1] at hok
    by_cases h2 : bs.length < contentStart bs start ∨ bs.length < start + 30
    · rw [if_pos h2] at hok; cases hok
    · rw [if_neg h2] at hok
      by_cases h3 : u16At bs (start + 8) ≠ 8
      · rw [if_pos h3] at hok
        by_cases h4 : bs.length < contentStart bs start + u32At bs (start + 22)
        · rw [if_pos h4] at hok; cases hok
        · rw [if_neg h4] at hok
          cases hok
          exact ⟨fun _ => ⟨rfl, by omega, rfl, rfl⟩, fun h => absurd h h3⟩
      · rw [if_neg h3] at hok
        by_cases h4 : bs.length < contentStart bs start + u32At bs (start + 18)
        · rw [if_pos h4] at hok; cases hok
        · rw [if_neg h4] at hok
          cases hi : inflate (slice bs (contentStart bs start)
              (contentStart bs start + u32At bs (start + 18))) with
          | error c => rw [hi] at hok; cases hok
          | ok read =>
            rw [hi] at hok; cases hok
            exact ⟨fun h => absurd h h3, fun _ => ⟨rfl, by omega, rfl, rfl⟩⟩

/-- C11: when `parseLocalFileHeader(bs, start)` succeeds, the next offset is
`start + 30 + fileNameLength + extraFieldLength + uncompressedSize` when the
raw compression method (the 16-bit value at `start+8`) is not 8, and
`start + 30 + fileNameLength + extraFieldLength + compressedSize` when it is
8, whatever the decompressor consumed or produced; the lengths and sizes are
those of the returned header. -/
theorem parse_next_offset (inflate : List Byte → Except Nat (List Byte)) (bs : List Byte)
    (start : Nat) (lfh : localFileHeader) (next : Nat)
    (hok : parseLocalFileHeader inflate bs start = Except.ok (lfh, next)) :
    (u16At bs (start + 8) ≠ 8 →
      next = start + 30 + u16At bs (start + 26) + u16At bs (start + 28)
          + u32At bs (start + 22) ∧
      next = start + 30 + lfh.fileName.length + lfh.extraField.length
          + lfh.uncompressedSize) ∧
    (u16At bs (start + 8) = 8 →
      next = start + 30 + u16At bs (start + 26) + u16At bs (start + 28)
          + u32At bs (start + 18) ∧
      next = start + 30 + lfh.fileName.length + lfh.extraField.length
          + lfh.compressedSize) := by
  obtain ⟨_, _, h3, h4⟩ := parse_ok_inv inflate bs start lfh next hok
  obtain ⟨p1, p2⟩ := parse_ok_paths inflate bs start lfh next hok
  have hc : contentStart bs start
      = start + 30 + u16At bs (start + 26) + u16At bs (start + 28) := rfl
  rw [hc] at h3
  have e1 : lfh.fileName.length = u16At bs (start + 26) := by
    rw [h4]; show (slice bs _ _).length = _
    rw [slice_length _ _ _ (by omega)]; omega
  have e2 : lfh.extraField.length = u16At bs (start + 28) := by
    rw [h4]; show (slice bs _ _).length = _
    rw [slice_length _ _ _ (by omega)]; omega
  have e3 : lfh.uncompressedSize = u32At bs (start + 22) := by rw [h4]; rfl
  have e4 : lfh.compressedSize = u32At bs (start + 18) := by rw [h4]; rfl
  constructor
  · intro h
    have := (p1 h).1
    rw [hc] at this
    exact ⟨this, by rw [e1, e2, e3]; exact this⟩
  · intro h
    have := (p2 h).1
    rw [hc] at this
    exact ⟨this, by rw [e1, e2, e4]; exact this⟩


/-- Witness of C11: the entry `b.txt` (method 8) at offset 0; the next offset
45 is 30 + 5 + 0 + 10, with `compressedSize` 10 and `uncompressedSize` 5. -/
theorem parse_next_offset_witness :
    (45 : Nat) = 0 + 30
      + (headerOf ⟨20, 0, 8, 0x6000, 0x5A21, 0x3610a686, 10, 5⟩ (ascii "b.txt") []
          (ascii "hello")).fileName.length
      + (headerOf ⟨20, 0, 8, 0x6000, 0x5A21, 0x3610a686, 10, 5⟩ (ascii "b.txt") []
          (ascii "hello")).extraField.length
      + (headerOf ⟨20, 0, 8, 0x6000, 0x5A21, 0x3610a686, 10, 5⟩ (ascii "b.txt") []
          (ascii "hello")).compressedSize :=
  ((parse_next_offset storedInflate
    (entryBytes ⟨20, 0, 8, 0x6000, 0x5A21, 0x3610a686, 10, 5⟩ (ascii "b.txt") []
      (storedDeflate (ascii "hello"))) 0
    (headerOf ⟨20, 0, 8, 0x6000, 0x5A21, 0x3610a686, 10, 5⟩ (ascii "b.txt") [] (ascii "hello"))
    45 (by rfl)).2 (by decide)).2

/-- C12: in the header of a successful parse the compression is
`deflateCompression` exactly when the raw method (the 16-bit value at
`start+8`) is 8, and `noCompression` for every other raw value; in that case
the content is the `uncompressedSize` bytes that follow the extra field,
taken from the buffer as they are, so its length is `uncompressedSize`
(`compressedSize` does not occur). -/
theorem parse_compression (inflate : List Byte → Except Nat (List Byte)) (bs : List Byte)
    (start : Nat) (lfh : localFileHeader) (next : Nat)
    (hok : parseLocalFileHeader inflate bs start = Except.ok (lfh, next)) :
    (lfh.compression = compression.deflateCompression ↔ u16At bs (start + 8) = 8) ∧
    (u16At bs (start + 8) ≠ 8 →
      lfh.compression = compression.noCompression ∧
      lfh.fileContentsByte
        = slice bs (start + 30 + u16At bs (start + 26) + u16At bs (start + 28))
            (start + 30 + u16At bs (start + 26) + u16At bs (start + 28)
              + lfh.uncompressedSize) ∧
      lfh.fileContents = lfh.fileContentsByte ∧
      lfh.fileContentsByte.length = lfh.uncompressedSize ∧
      start + 30 + u16At bs (start + 26) + u16At bs (start + 28) + lfh.uncompressedSize
        ≤ bs.length) := by
  obtain ⟨_, _, _, h4⟩ := parse_ok_inv inflate bs start lfh next hok
  obtain ⟨p1, _⟩ := parse_ok_paths inflate bs start lfh next hok
  have ec : lfh.compression
      = if 8 = u16At bs (start + 8) then compression.deflateCompression
        else compression.noCompression := by rw [h4]; rfl
  have e3 : lfh.uncompressedSize = u32At bs (start + 22) := by rw [h4]; rfl
  constructor
  · rw [ec]
    by_cases h8 : 8 = u16At bs (start + 8)
    · simp [h8.symm]
    · rw [if_neg h8]
      constructor
      · intro h; cases h
      · intro h; exact absurd h.symm h8
  · intro h
    obtain ⟨q1, q2, q3, q4⟩ := p1 h
    have hc : contentStart bs start
        = start + 30 + u16At bs (start + 26) + u16At bs (start + 28) := rfl
    rw [hc] at q1 q3
    rw [q1] at q2
    refine ⟨by rw [ec, if_neg (fun h8 => h h8.symm)], by rw [e3]; exact q3, q4, ?_,
      by rw [e3]; exact q2⟩
    rw [q3, slice_length _ _ _ q2, e3]; omega

/-- Witness of C12: the entry `a.txt` with the raw method 12 and a
`compressedSize` of 0; the content is the 3 stored bytes. -/
theorem parse_compression_witness :
    (headerOf ⟨20, 0, 12, 0x6000, 0x5A21, 0xdeadbeef, 0, 3⟩ (ascii "a.txt") []
        (ascii "hi!")).compression = compression.noCompression ∧
    (headerOf ⟨20, 0, 12, 0x6000, 0x5A21, 0xdeadbeef, 0, 3⟩ (ascii "a.txt") []
        (ascii "hi!")).fileContentsByte.length = 3 :=
  have h := (parse_compression storedInflate
    (entryBytes ⟨20, 0, 12, 0x6000, 0x5A21, 0xdeadbeef, 0, 3⟩ (ascii "a.txt") [] (ascii "hi!")) 0
    (headerOf ⟨20, 0, 12, 0x6000, 0x5A21, 0xdeadbeef, 0, 3⟩ (ascii "a.txt") [] (ascii "hi!"))
    38 (by rfl)).2 (by decide)
  ⟨h.1, h.2.2.2.1⟩

/-- C16: at a start where the signature matches and the 30-byte block, the
file name and the extra field lie inside the buffer, a declared content
length that reaches past the end of the buffer (`uncompressedSize` when the
raw method is not 8, `compressedSize` when it is 8) makes
`parseLocalFileHeader` fail with `errOverranBuffer`, with every decompressor:
on the deflate path the decompressor is not consulted. -/
theorem parse_content_overrun (bs : List Byte) (start : Nat)
    (hs : u32At bs start = 0x04034b50) (h30 : start + 30 ≤ bs.length)
    (hcs : start + 30 + u16At bs (start + 26) + u16At bs (start + 28) ≤ bs.length) :
    (u16At bs (start + 8) ≠ 8 →
      bs.length < start + 30 + u16At bs (start + 26) + u16At bs (start + 28)
        + u32At bs (start + 22) →
      ∀ g : List Byte → Except Nat (List Byte),
        parseLocalFileHeader g bs start = Except.error Error.errOverranBuffer) ∧
    (u16At bs (start + 8) = 8 →
      bs.length < start + 30 + u16At bs (start + 26) + u16At bs (start + 28)
        + u32At bs (start + 18) →
      ∀ g : List Byte → Except Nat (List Byte),
        parseLocalFileHeader g bs start = Except.error Error.errOverranBuffer) := by
  have hc : contentStart bs start
      = start + 30 + u16At bs (start + 26) + u16At bs (start + 28) := rfl
  constructor
  · intro h8 hlen g
    rw [parse_eq, if_neg (not_or.mpr ⟨by omega, not_not.mpr hs⟩),
      if_neg (not_or.mpr ⟨by rw [hc]; omega, by omega⟩), if_pos h8,
      if_pos (by rw [hc]; exact hlen)]
  · intro h8 hlen g
    rw [parse_eq, if_neg (not_or.mpr ⟨by omega, not_not.mpr hs⟩),
      if_neg (not_or.mpr ⟨by rw [hc]; omega, by omega⟩), if_neg (not_not.mpr h8),
      if_pos (by rw [hc]; exact hlen)]

/-- Witness of C16: the entry `b.txt` (method 8, `compressedSize` 10) cut
after 40 of its 45 bytes. -/
theorem parse_content_overrun_witness :
    parseLocalFileHeader storedInflate
        ((entryBytes ⟨20, 0, 8, 0x6000, 0x5A21, 0x3610a686, 10, 5⟩ (ascii "b.txt") []
          (storedDeflate (ascii "hello"))).take 40) 0
      = Except.error Error.errOverranBuffer :=
  (parse_content_overrun
    ((entryBytes ⟨20, 0, 8, 0x6000, 0x5A21, 0x3610a686, 10, 5⟩ (ascii "b.txt") []
      (storedDeflate (ascii "hello"))).take 40) 0 (by decide) (by decide)
    (by decide)).2 (by decide) (by decide) storedInflate

/-- The parser of the first family at `start` is the parser at 0 on the bytes
from `start` onward, the next offset moved by `start`. -/
theorem parse_drop_start (inflate : List Byte → Except Nat (List Byte))
    (bs : List Byte) (start : Nat) :
    parseLocalFileHeader inflate bs start
      = (parseLocalFileHeader inflate (bs.drop start) 0).map (fun r => (r.1, start + r.2)) := by
  by_cases hl : start ≤ bs.length
  · have h := parse_append_left inflate (bs.take start) (bs.drop start) 0
    rw [List.take_append_drop, List.length_take, Nat.min_eq_left hl, Nat.add_zero] at h
    exact h
  · have e : bs.drop start = [] := List.drop_eq_nil_of_le (by omega)
    rw [e, parse_eq, if_pos (Or.inl (by omega)), parse_eq, if_pos (Or.inl (by simp))]
    rfl



/-! ## Termination and the index expressions of the walk -/

/-- A successful parse moves the offset forward by at least 30 and not past
the end of the buffer. -/
theorem parse_next_bounds (inflate : List Byte → Except Nat (List Byte)) (bs : List Byte)
    (start : Nat) (lfh : localFileHeader) (next : Nat)
    (hok : parseLocalFileHeader inflate bs start = Except.ok (lfh, next)) :
    start + 30 ≤ next ∧ next ≤ bs.length := by
  obtain ⟨p1, p2⟩ := parse_ok_paths inflate bs start lfh next hok
  have hc : contentStart bs start
      = start + 30 + u16At bs (start + 26) + u16At bs (start + 28) := rfl
  by_cases h8 : u16At bs (start + 8) = 8
  · obtain ⟨q1, q2, _⟩ := p2 h8
    exact ⟨by rw [q1, hc]; omega, q2⟩
  · obtain ⟨q1, q2, _⟩ := p1 h8
    exact ⟨by rw [q1, hc]; omega, q2⟩

/-- One iteration of the loop after a successful parse: the three index
expressions panic, at the index equal to the length, when the content has
fewer than 3 bytes; otherwise the header is printed and the loop goes on at
the next offset. -/
theorem walkLoop_step (inflate : List Byte → Except Nat (List Byte)) (f : List Byte)
    (fuel pos : Nat) (lfh : localFileHeader) (next : Nat) (hlt : pos < f.length)
    (hok : parseLocalFileHeader inflate f pos = Except.ok (lfh, next)) :
    walkLoop inflate f (fuel + 1) pos
      = if lfh.fileContentsByte.length < 3 then
          { printed := [],
            outcome := WalkEnd.panicIndex lfh.fileContentsByte.length
              lfh.fileContentsByte.length }
        else (walkLoop inflate f fuel next).after [lfh] := by
  rw [walkLoop, if_pos hlt, hok]
  simp only
  by_cases h0 : lfh.fileContentsByte.length ≤ 0
  · have e : lfh.fileContentsByte.length = 0 := by omega
    rw [if_pos h0, if_pos (by omega), e]
  · rw [if_neg h0]
    by_cases h1 : lfh.fileContentsByte.length ≤ 1
    · have e : lfh.fileContentsByte.length = 1 := by omega
      rw [if_pos h1, if_pos (by omega), e]
    · rw [if_neg h1]
      by_cases h2 : lfh.fileContentsByte.length ≤ 2
      · have e : lfh.fileContentsByte.length = 2 := by omega
        rw [if_pos h2, if_pos (by omega), e]
      · rw [if_neg h2, if_neg (by omega)]
        rfl

/-- The loop started inside the buffer with fuel for the bytes that remain:
it does not run out of fuel, 30 bytes are passed for each successful parse,
and a normal end is at an offset of the buffer. -/
theorem walkLoop_bound (inflate : List Byte → Except Nat (List Byte)) (f : List Byte) :
    ∀ (fuel pos : Nat), pos ≤ f.length → f.length - pos < 30 * fuel →
      (walkLoop inflate f fuel pos).outcome ≠ WalkEnd.outOfFuel ∧
      30 * (walkLoop inflate f fuel pos).parses ≤ f.length - pos ∧
      ∀ e, (walkLoop inflate f fuel pos).outcome = WalkEnd.finished e →
        pos ≤ e ∧ e ≤ f.length := by
  intro fuel
  induction fuel with
  | zero => intro pos _ h; omega
  | succ fuel ih =>
    intro pos hpos hfuel
    by_cases hlt : pos < f.length
    · cases hp : parseLocalFileHeader inflate f pos with
      | error err =>
        rw [walkLoop, if_pos hlt, hp]
        simp only
        by_cases hb : err = Error.errNotZip ∧ pos > 0
        · rw [if_pos hb]
          refine ⟨by simp, by simp [WalkResult.parses], ?_⟩
          intro e he
          cases he
          exact ⟨Nat.le_refl _, hpos⟩
        · rw [if_neg hb]
          refine ⟨by simp, by simp [WalkResult.parses], ?_⟩
          intro e he
          cases he
      | ok r =>
        obtain ⟨lfh, next⟩ := r
        obtain ⟨b1, b2⟩ := parse_next_bounds inflate f pos lfh next hp
        rw [walkLoop_step inflate f fuel pos lfh next hlt hp]
        by_cases hs : lfh.fileContentsByte.length < 3
        · rw [if_pos hs]
          refine ⟨by simp, ?_, ?_⟩
          · simp only [WalkResult.parses, List.length_nil]; omega
          · intro e he
            cases he
        · rw [if_neg hs]
          obtain ⟨i1, i2, i3⟩ := ih next b2 (by omega)
          refine ⟨i1, ?_, ?_⟩
          · have hpar : ((walkLoop inflate f fuel next).after [lfh]).parses
                = (walkLoop inflate f fuel next).parses + 1 := by
              simp only [WalkResult.parses, WalkResult.after, List.length_append,
                List.length_cons, List.length_nil]
              omega
            rw [hpar]; omega
          · intro e he
            obtain ⟨j1, j2⟩ := i3 e he
            exact ⟨by omega, j2⟩
    · rw [walkLoop, if_neg hlt]
      refine ⟨by simp, by simp [WalkResult.parses], ?_⟩
      intro e he
      cases he
      exact ⟨Nat.le_refl _, hpos⟩

/-- C19: a successful `parseLocalFileHeader(bs, start)` returns a next offset
with `start + 30 <= next <= len(bs)`; so on every buffer the loop of the list
command moves its offset strictly forward inside `0..len(buffer)`, ends (the
model does not run out of fuel), with at most `len(buffer) / 30` successful
parses, and a normal end is at an offset of the buffer. -/
theorem walk_terminates (inflate : List Byte → Except Nat (List Byte)) (f : List Byte) :
    (∀ (start : Nat) (lfh : localFileHeader) (next : Nat),
      parseLocalFileHeader inflate f start = Except.ok (lfh, next) →
        start + 30 ≤ next ∧ next ≤ f.length) ∧
    (listRun inflate f).outcome ≠ WalkEnd.outOfFuel ∧
    (listRun inflate f).parses ≤ f.length / 30 ∧
    (∀ e, (listRun inflate f).outcome = WalkEnd.finished e → e ≤ f.length) := by
  obtain ⟨h1, h2, h3⟩ := walkLoop_bound inflate f (f.length + 1) 0 (Nat.zero_le _) (by omega)
  refine ⟨fun start lfh next hok => parse_next_bounds inflate f start lfh next hok, h1, ?_,
    fun e he => (h3 e he).2⟩
  unfold listRun
  omega



/-- Witness of C19: the archive of `a.txt` (content `hi!`) and `b.txt`, 83
bytes; the first parse goes from offset 0 to 38, and the walk makes 2
successful parses. -/
theorem walk_terminates_witness :
    (0 + 30 ≤ 38 ∧ 38 ≤
      (entryBytes ⟨20, 0, 0, 0x6000, 0x5A21, 0xdeadbeef, 3, 3⟩ (ascii "a.txt") [] (ascii "hi!")
        ++ entryBytes ⟨20, 0, 8, 0x6000, 0x5A21, 0x3610a686, 10, 5⟩ (ascii "b.txt") []
          (storedDeflate (ascii "hello"))).length) ∧
    (listRun storedInflate
      (entryBytes ⟨20, 0, 0, 0x6000, 0x5A21, 0xdeadbeef, 3, 3⟩ (ascii "a.txt") [] (ascii "hi!")
        ++ entryBytes ⟨20, 0, 8, 0x6000, 0x5A21, 0x3610a686, 10, 5⟩ (ascii "b.txt") []
          (storedDeflate (ascii "hello")))).outcome ≠ WalkEnd.outOfFuel :=
  ⟨(walk_terminates storedInflate
      (entryBytes ⟨20, 0, 0, 0x6000, 0x5A21, 0xdeadbeef, 3, 3⟩ (ascii "a.txt") [] (ascii "hi!")
        ++ entryBytes ⟨20, 0, 8, 0x6000, 0x5A21, 0x3610a686, 10, 5⟩ (ascii "b.txt") []
          (storedDeflate (ascii "hello")))).1 0
      (headerOf ⟨20, 0, 0, 0x6000, 0x5A21, 0xdeadbeef, 3, 3⟩ (ascii "a.txt") [] (ascii "hi!"))
      38 (by rfl),
    (walk_terminates storedInflate
      (entryBytes ⟨20, 0, 0, 0x6000, 0x5A21, 0xdeadbeef, 3, 3⟩ (ascii "a.txt") [] (ascii "hi!")
        ++ entryBytes ⟨20, 0, 8, 0x6000, 0x5A21, 0x3610a686, 10, 5⟩ (ascii "b.txt") []
          (storedDeflate (ascii "hello")))).2.1⟩

theorem archive_append (es₁ es₂ : List Entry) :
    archive (es₁ ++ es₂) = archive es₁ ++ archive es₂ := by
  induction es₁ with
  | nil => rfl
  | cons e es ih => simp [archive, ih, List.append_assoc]

/-- The first entry with a content of fewer than 3 bytes, when there is
one. -/
theorem exists_first_short (es : List Entry) (h : ∃ e ∈ es, e.content.length < 3) :
    ∃ good bad rest, es = good ++ bad :: rest ∧ (∀ e ∈ good, 3 ≤ e.content.length) ∧
      bad.content.length < 3 := by
  induction es with
  | nil => obtain ⟨e, he, _⟩ := h; cases he
  | cons a es ih =>
    by_cases ha : a.content.length < 3
    · exact ⟨[], a, es, rfl, ⟨fun e he => absurd he (List.not_mem_nil e), ha⟩⟩
    · obtain ⟨e, he, hs⟩ := h
      have he2 : e ∈ es := by
        rcases List.mem_cons.mp he with rfl | h2
        · exact absurd hs ha
        · exact h2
      obtain ⟨good, bad, rest, e1, e2, e3⟩ := ih ⟨e, he2, hs⟩
      refine ⟨a :: good, bad, rest, by rw [e1]; rfl, ?_, e3⟩
      intro x hx
      rcases List.mem_cons.mp hx with rfl | h2
      · omega
      · exact e2 x h2

/-- The walk over valid entries of which `bad` is the first with a content of
fewer than 3 bytes: the headers before it are printed, and the walk stops at
the index expression whose index is the length of that content. -/
theorem listRun_first_short (inflate : List Byte → Except Nat (List Byte))
    (good rest : List Entry) (bad : Entry) (hv : ∀ e ∈ good ++ bad :: rest, e.valid inflate)
    (h3 : ∀ e ∈ good, 3 ≤ e.content.length) (hs : bad.content.length < 3) :
    listRun inflate (archive (good ++ bad :: rest))
      = { printed := good.map Entry.header,
          outcome := WalkEnd.panicIndex bad.content.length bad.content.length } := by
  have hvg : ∀ e ∈ good, e.valid inflate := fun e he => hv e (List.mem_append_left _ he)
  have hvb : bad.valid inflate := hv bad (List.mem_append_right _ (List.mem_cons_self _ _))
  have ha : archive (good ++ bad :: rest) = archive good ++ (bad.bytes ++ archive rest) := by
    rw [archive_append]; rfl
  obtain ⟨fuel, hf⟩ := listRun_entries inflate good (bad.bytes ++ archive rest) hvg h3
  rw [ha, hf]
  have hp := parse_valid_entry inflate (archive good) (archive rest) bad hvb
  have hlt : (archive good).length < (archive good ++ (bad.bytes ++ archive rest)).length := by
    simp only [List.length_append, Entry.bytes_length]; omega
  have hsb : bad.header.fileContentsByte.length < 3 := hs
  rw [walkLoop_step inflate _ fuel _ _ _ hlt hp, if_pos hsb]
  simp only [WalkResult.after, List.append_nil]
  rfl

/-- C17: after a successful parse the three index expressions of the loop are
in bounds exactly when the content has at least 3 bytes: with fewer the
iteration panics at the index equal to the length of the content, before
anything is printed, and otherwise the header is printed and the loop goes
on at the next offset. Hence on a buffer of valid entries the walk is free of
an index-out-of-range abort exactly when every entry has a content of at
least 3 bytes: it then prints all the headers and ends normally, and
otherwise it stops at the first entry with a shorter content. -/
theorem walk_index_abort (inflate : List Byte → Except Nat (List Byte)) (es : List Entry)
    (hv : ∀ e ∈ es, e.valid inflate) :
    (∀ (f : List Byte) (fuel pos : Nat) (lfh : localFileHeader) (next : Nat),
      pos < f.length → parseLocalFileHeader inflate f pos = Except.ok (lfh, next) →
      walkLoop inflate f (fuel + 1) pos
        = if lfh.fileContentsByte.length < 3 then
            { printed := [],
              outcome := WalkEnd.panicIndex lfh.fileContentsByte.length
                lfh.fileContentsByte.length }
          else (walkLoop inflate f fuel next).after [lfh]) ∧
    ((∀ e ∈ es, 3 ≤ e.content.length) →
      listRun inflate (archive es)
        = { printed := es.map Entry.header,
            outcome := WalkEnd.finished (archive es).length }) ∧
    (∀ (good rest : List Entry) (bad : Entry), es = good ++ bad :: rest →
      (∀ e ∈ good, 3 ≤ e.content.length) → bad.content.length < 3 →
      listRun inflate (archive es)
        = { printed := good.map Entry.header,
            outcome := WalkEnd.panicIndex bad.content.length bad.content.length }) ∧
    ((∀ i n, (listRun inflate (archive es)).outcome ≠ WalkEnd.panicIndex i n) ↔
      ∀ e ∈ es, 3 ≤ e.content.length) := by
  have hall : (∀ e ∈ es, 3 ≤ e.content.length) →
      listRun inflate (archive es)
        = { printed := es.map Entry.header,
            outcome := WalkEnd.finished (archive es).length } := by
    intro h3
    have h := listRun_archive inflate es [] hv h3 (Or.inl rfl)
    rw [List.append_nil] at h
    exact h
  have hbad : ∀ (good rest : List Entry) (bad : Entry), es = good ++ bad :: rest →
      (∀ e ∈ good, 3 ≤ e.content.length) → bad.content.length < 3 →
      listRun inflate (archive es)
        = { printed := good.map Entry.header,
            outcome := WalkEnd.panicIndex bad.content.length bad.content.length } := by
    intro good rest bad he h3 hs
    subst he
    exact listRun_first_short inflate good rest bad hv h3 hs
  refine ⟨fun f fuel pos lfh next hlt hok => walkLoop_step inflate f fuel pos lfh next hlt hok,
    hall, hbad, ?_, ?_⟩
  · intro hno e he
    by_contra hc
    obtain ⟨good, bad, rest, e1, e2, e3⟩ := exists_first_short es ⟨e, he, by omega⟩
    exact hno _ _ (by rw [hbad good rest bad e1 e2 e3])
  · intro h3 i n
    rw [hall h3]
    simp



/-- Witness of C17: the archive of `a.txt` (content `hi!`) and `b.txt`
(content `hi`); the header of `a.txt` is printed and the walk stops at index 2
of the 2-byte content. -/
theorem walk_index_abort_witness :
    listRun storedInflate
        (archive [⟨⟨20, 0, 0, 0x6000, 0x5A21, 0xdeadbeef, 3, 3⟩, ascii "a.txt", [], ascii "hi!",
            ascii "hi!"⟩,
          ⟨⟨20, 0, 0, 0x6000, 0x5A21, 0xd8932aac, 2, 2⟩, ascii "b.txt", [], ascii "hi",
            ascii "hi"⟩])
      = { printed := [headerOf ⟨20, 0, 0, 0x6000, 0x5A21, 0xdeadbeef, 3, 3⟩ (ascii "a.txt") []
            (ascii "hi!")],
          outcome := WalkEnd.panicIndex 2 2 } := by
  have hv : ∀ e ∈ [(⟨⟨20, 0, 0, 0x6000, 0x5A21, 0xdeadbeef, 3, 3⟩, ascii "a.txt", [],
        ascii "hi!", ascii "hi!"⟩ : Entry),
      ⟨⟨20, 0, 0, 0x6000, 0x5A21, 0xd8932aac, 2, 2⟩, ascii "b.txt", [], ascii "hi",
        ascii "hi"⟩], e.valid storedInflate := by
    intro e he
    simp only [List.mem_cons, List.mem_singleton, List.not_mem_nil, or_false] at he
    rcases he with rfl | rfl
    · exact ⟨by decide, by decide, by decide, Or.inl ⟨by decide, by decide, rfl⟩⟩
    · exact ⟨by decide, by decide, by decide, Or.inl ⟨by decide, by decide, rfl⟩⟩
  exact (walk_index_abort storedInflate _ hv).2.2.1
    [⟨⟨20, 0, 0, 0x6000, 0x5A21, 0xdeadbeef, 3, 3⟩, ascii "a.txt", [], ascii "hi!", ascii "hi!"⟩]
    []
    ⟨⟨20, 0, 0, 0x6000, 0x5A21, 0xd8932aac, 2, 2⟩, ascii "b.txt", [], ascii "hi", ascii "hi"⟩
    rfl (by decide) (by decide)



/-! ## The MS-DOS date and time -/

theorem and_mask (x n m : Nat) (hm : m = 2 ^ n - 1) : x &&& m = x % 2 ^ n := by
  rw [hm, Nat.and_pow_two_sub_one_eq_mod]

/-- The six components `msdosTimeToGoTime` computes, in terms of division and
remainder. -/
theorem msdos_fields (d t : Nat) :
    msdosTimeToGoTime d t
      = Date (d / 2 ^ 9 % 2 ^ 7 + 1980) (d / 2 ^ 5 % 2 ^ 4) (d % 2 ^ 5) (t / 2 ^ 11)
          (t / 2 ^ 5 % 2 ^ 6) (2 * (t % 2 ^ 5)) 0 Location.Local := by
  have hs : (t % 2 ^ 5 * 2) % 2 ^ 16 = 2 * (t % 2 ^ 5) := by
    have := Nat.mod_lt t (show 0 < 2 ^ 5 by decide)
    omega
  unfold msdosTimeToGoTime
  simp only [Nat.shiftRight_eq_div_pow, and_mask _ 6 0x3F (by decide),
    and_mask _ 5 0x1F (by decide), and_mask _ 4 0x0F (by decide),
    and_mask _ 7 0x7F (by decide), hs]

/-- C13: for a date word `d` and a 16-bit time word `t`, the components `msdosTimeToGoTime(d, t)`
gives to the calendar constructor are seconds = 2 * (bits 0-4 of `t`),
minutes = bits 5-10 of `t`, hours = bits 11-15 of `t`, day = bits 0-4 of `d`,
month = bits 5-8 of `d`, year = 1980 + bits 9-15 of `d`, with 0 nanoseconds
and the local zone; the seconds are even, and the product
`(t & 0x1F) * 2` is below `2^16` (at most 62). -/
theorem msdos_components (d t : Nat) (ht : t < 2 ^ 16) :
    msdosTimeToGoTime d t
      = Date (1980 + d / 2 ^ 9 % 2 ^ 7) (d / 2 ^ 5 % 2 ^ 4) (d % 2 ^ 5) (t / 2 ^ 11 % 2 ^ 5)
          (t / 2 ^ 5 % 2 ^ 6) (2 * (t % 2 ^ 5)) 0 Location.Local ∧
    (msdosTimeToGoTime d t).sec % 2 = 0 ∧
    (msdosTimeToGoTime d t).sec ≤ 62 ∧
    (t &&& 0x1F) * 2 < 2 ^ 16 ∧
    ((t &&& 0x1F) * 2) % 2 ^ 16 = (t &&& 0x1F) * 2 := by
  have hlt : (t &&& 0x1F) * 2 < 2 ^ 16 := by
    rw [and_mask t 5 0x1F (by decide)]
    have := Nat.mod_lt t (show 0 < 2 ^ 5 by decide)
    omega
  have hh : t / 2 ^ 11 % 2 ^ 5 = t / 2 ^ 11 := by
    apply Nat.mod_eq_of_lt
    have : t / 2 ^ 11 < 2 ^ 5 := by
      rw [Nat.div_lt_iff_lt_mul (by decide)]
      exact ht
    exact this
  have hy : 1980 + d / 2 ^ 9 % 2 ^ 7 = d / 2 ^ 9 % 2 ^ 7 + 1980 := Nat.add_comm _ _
  refine ⟨by rw [msdos_fields, hh, hy], ?_, ?_, hlt, Nat.mod_eq_of_lt hlt⟩
  · rw [msdos_fields]
    show 2 * (t % 2 ^ 5) % 2 = 0
    omega
  · rw [msdos_fields]
    show 2 * (t % 2 ^ 5) ≤ 62
    have := Nat.mod_lt t (show 0 < 2 ^ 5 by decide)
    omega

/-- Witness of C13: 31 December 2107, 23:59:58. -/
theorem msdos_components_witness :
    msdosTimeToGoTime 0xFF9F 0xBF7D = Date 2107 12 31 23 59 58 0 Location.Local :=
  (msdos_components 0xFF9F 0xBF7D (by decide)).1

theorem pack3 (a b c i j : Nat) (hc : c < 2 ^ i) (hb : c + 2 ^ i * b < 2 ^ j) :
    (a <<< j) ||| (b <<< i) ||| c = c + 2 ^ i * b + 2 ^ j * a := by
  rw [Nat.or_assoc, Nat.or_comm (b <<< i) c, or_shift_eq_add c b i hc, Nat.or_comm,
    or_shift_eq_add _ a j hb]

/-- Packing the components of a decoded date and time gives the two words
back. -/
theorem pack_unpack (d t : Nat) (hd : d < 2 ^ 16) :
    packDate (msdosTimeToGoTime d t) = d ∧ packTime (msdosTimeToGoTime d t) = t := by
  rw [msdos_fields]
  constructor
  · show ((d / 2 ^ 9 % 2 ^ 7 + 1980 - 1980) <<< 9) ||| ((d / 2 ^ 5 % 2 ^ 4) <<< 5)
      ||| (d % 2 ^ 5) = d
    rw [Nat.add_sub_cancel, pack3 _ _ _ 5 9 (Nat.mod_lt _ (by decide)) (by omega)]
    omega
  · show ((t / 2 ^ 11) <<< 11) ||| ((t / 2 ^ 5 % 2 ^ 6) <<< 5) ||| (2 * (t % 2 ^ 5) / 2) = t
    rw [pack3 _ _ _ 5 11 (by omega) (by omega)]
    omega

/-- C14: decoding then re-encoding is the identity on packed words: for a
16-bit date word `d` and a time word `t`, packing the components of `msdosTimeToGoTime(d, t)`
as `((year - 1980) << 9) | (month << 5) | day` and
`(hours << 11) | (minutes << 5) | (seconds / 2)` gives `d` and `t` back; so no
bit is lost, and different pairs of words decode to different components. -/
theorem msdos_roundtrip (d t : Nat) (hd : d < 2 ^ 16) :
    packDate (msdosTimeToGoTime d t) = d ∧ packTime (msdosTimeToGoTime d t) = t ∧
    ∀ d2 t2 : Nat, d2 < 2 ^ 16 →
      msdosTimeToGoTime d2 t2 = msdosTimeToGoTime d t → d2 = d ∧ t2 = t := by
  obtain ⟨h1, h2⟩ := pack_unpack d t hd
  refine ⟨h1, h2, ?_⟩
  intro d2 t2 hd2 he
  obtain ⟨g1, g2⟩ := pack_unpack d2 t2 hd2
  rw [he] at g1 g2
  exact ⟨g1.symm.trans h1, g2.symm.trans h2⟩

/-- Witness of C14: the words of 31 December 2107, 23:59:58. -/
theorem msdos_roundtrip_witness :
    packDate (msdosTimeToGoTime 0xFF9F 0xBF7D) = 0xFF9F ∧
    packTime (msdosTimeToGoTime 0xFF9F 0xBF7D) = 0xBF7D :=
  ⟨(msdos_roundtrip 0xFF9F 0xBF7D (by decide)).1,
    (msdos_roundtrip 0xFF9F 0xBF7D (by decide)).2.1⟩



/-! ## The year of the calendar time -/

theorem norm_60 (hi lo : Int) : norm hi lo 60 = (hi + lo / 60, lo % 60) := by
  unfold norm
  by_cases h : lo < 0
  · simp only [if_pos h]
    rw [if_neg (by omega)]
    exact Prod.ext (by dsimp only; omega) (by dsimp only; omega)
  · simp only [if_neg h]
    by_cases h2 : lo ≥ 60
    · rw [if_pos h2]
      exact Prod.ext rfl (by dsimp only; omega)
    · rw [if_neg h2]
      exact Prod.ext (by dsimp only; omega) (by dsimp only; omega)

theorem norm_24 (hi lo : Int) : norm hi lo 24 = (hi + lo / 24, lo % 24) := by
  unfold norm
  by_cases h : lo < 0
  · simp only [if_pos h]
    rw [if_neg (by omega)]
    exact Prod.ext (by dsimp only; omega) (by dsimp only; omega)
  · simp only [if_neg h]
    by_cases h2 : lo ≥ 24
    · rw [if_pos h2]
      exact Prod.ext rfl (by dsimp only; omega)
    · rw [if_neg h2]
      exact Prod.ext (by dsimp only; omega) (by dsimp only; omega)

theorem norm_12 (hi lo : Int) : norm hi lo 12 = (hi + lo / 12, lo % 12) := by
  unfold norm
  by_cases h : lo < 0
  · simp only [if_pos h]
    rw [if_neg (by omega)]
    exact Prod.ext (by dsimp only; omega) (by dsimp only; omega)
  · simp only [if_neg h]
    by_cases h2 : lo ≥ 12
    · rw [if_pos h2]
      exact Prod.ext rfl (by dsimp only; omega)
    · rw [if_neg h2]
      exact Prod.ext (by dsimp only; omega) (by dsimp only; omega)

theorem norm_nsec_zero (hi : Int) : norm hi 0 1000000000 = (hi, 0) := by
  unfold norm
  simp

theorem daysIn_bounds (m y : Int) : 28 ≤ daysIn m y ∧ daysIn m y ≤ 31 := by
  unfold daysIn
  split_ifs <;> omega

theorem daysIn_december (y : Int) : daysIn 12 y = 31 := by
  unfold daysIn
  simp

theorem daysIn_january (y : Int) : daysIn 1 y = 31 := by
  unfold daysIn
  simp

theorem normDay_in_range (fuel : Nat) (y m d : Int) (h1 : 1 ≤ d) (h2 : d ≤ daysIn m y) :
    normDay fuel y m d = (y, m, d) := by
  cases fuel with
  | zero => rfl
  | succ n => rw [normDay, if_neg (by omega), if_neg (by omega)]

/-- The year after one carry of the day into a neighbouring month, for a day
number between -27 and 56. -/
theorem normDay_year (fuel : Nat) (y m d : Int) (hd0 : -27 ≤ d) (hd1 : d ≤ 56) :
    (normDay (fuel + 1) y m d).1
      = if d < 1 ∧ m = 1 then y - 1 else if d > daysIn m y ∧ m = 12 then y + 1 else y := by
  have b2 := daysIn_bounds m y
  by_cases hlow : d < 1
  · by_cases hm : m = 1
    · have b := daysIn_december (y - 1)
      rw [normDay, if_pos hlow, if_pos hm, normDay_in_range _ _ _ _ (by omega) (by omega),
        if_pos ⟨hlow, hm⟩]
    · have b := daysIn_bounds (m - 1) y
      rw [normDay, if_pos hlow, if_neg hm, normDay_in_range _ _ _ _ (by omega) (by omega),
        if_neg (show ¬(d < 1 ∧ m = 1) from fun h => hm h.2),
        if_neg (show ¬(d > daysIn m y ∧ m = 12) from fun h => by omega)]
  · rw [if_neg (show ¬(d < 1 ∧ m = 1) from fun h => hlow h.1)]
    by_cases hhigh : d > daysIn m y
    · by_cases hm : m = 12
      · have b := daysIn_january (y + 1)
        rw [normDay, if_neg hlow, if_pos hhigh, if_pos hm,
          normDay_in_range _ _ _ _ (by omega) (by omega), if_pos ⟨hhigh, hm⟩]
      · have b := daysIn_bounds (m + 1) y
        rw [normDay, if_neg hlow, if_pos hhigh, if_neg hm,
          normDay_in_range _ _ _ _ (by omega) (by omega),
          if_neg (show ¬(d > daysIn m y ∧ m = 12) from fun h => hm h.2)]
    · rw [normDay, if_neg hlow, if_neg hhigh,
        if_neg (show ¬(d > daysIn m y ∧ m = 12) from fun h => hhigh h.1)]

/-- The shift of a zone is the difference of two of its offsets, or 0. -/
theorem zoneShift_bound (z : Zone) (t : Time) (b : Int)
    (hz : ∀ u, -b ≤ (z.lookup u).1 ∧ (z.lookup u).1 ≤ b) :
    -(2 * b) ≤ t.zoneShift z ∧ t.zoneShift z ≤ 2 * b := by
  have key : ∀ u : Int, ∃ o1 : Int, -b ≤ o1 ∧ o1 ≤ b ∧
      (if (z.lookup u).1 ≠ 0 then
        u - (if u - (z.lookup u).1 < (z.lookup u).2.1 ∨ u - (z.lookup u).1 ≥ (z.lookup u).2.2
          then (z.lookup (u - (z.lookup u).1)).1 else (z.lookup u).1)
       else u) = u - o1 := by
    intro u
    by_cases h0 : (z.lookup u).1 ≠ 0
    · rw [if_pos h0]
      by_cases h1 : u - (z.lookup u).1 < (z.lookup u).2.1 ∨ u - (z.lookup u).1 ≥ (z.lookup u).2.2
      · rw [if_pos h1]
        exact ⟨_, (hz _).1, (hz _).2, rfl⟩
      · rw [if_neg h1]
        exact ⟨_, (hz _).1, (hz _).2, rfl⟩
    · rw [if_neg h0]
      have hb := hz u
      exact ⟨0, by omega, by omega, by omega⟩
  obtain ⟨o1, h1, h2, h3⟩ := key t.unixWall
  have e : t.unixSec z = t.unixWall - o1 := h3
  have h4 := hz (t.unixSec z)
  unfold Time.zoneShift
  omega

/-- A zone with one offset at all times has no shift. -/
theorem zoneShift_fixed (offset : Int) (t : Time) : t.zoneShift (fixedZone offset) = 0 := by
  unfold Time.zoneShift Time.unixSec fixedZone
  by_cases h : offset = 0
  · subst h
    simp
  · simp only [ne_eq, h, not_false_eq_true, if_true]
    split_ifs <;> omega

/-- The year of the date `s` seconds (at most two days either way) after a
date and time whose components are in the ranges of the packed format (month
up to 15, day up to 31, hour up to 31, minute up to 63, second up to 62): it
is at most one year away from the year given, and with `s = 0` it is the year
given when the month is 1 to 12, the day at least 1, and the hour, minute and
second are in their usual ranges. -/
theorem year_of_fields (x : Time) (s : Int) (hs0 : -172800 ≤ s) (hs1 : s ≤ 172800)
    (hmo : x.month ≤ 15) (hd : x.day ≤ 31) (hh : x.hour ≤ 31)
    (hmi : x.min ≤ 63) (hs : x.sec ≤ 62) (hn : x.nsec = 0) :
    (x.year : Int) - 1 ≤ x.yearAfter s ∧ x.yearAfter s ≤ (x.year : Int) + 1 ∧
    (s = 0 → 1 ≤ x.month → x.month ≤ 12 → 1 ≤ x.day → x.hour ≤ 23 → x.min ≤ 59 →
      x.sec ≤ 59 → x.yearAfter s = (x.year : Int)) := by
  have e1 : norm ((x.sec : Int) + s) (x.nsec : Int) 1000000000 = ((x.sec : Int) + s, 0) := by
    rw [hn]; exact norm_nsec_zero _
  obtain ⟨dd, hdd, hd0, hd1, hd2⟩ : ∃ dd : Int,
      dd = (x.day : Int) + ((x.hour : Int) + ((x.min : Int) + ((x.sec : Int) + s) / 60) / 60) / 24
        ∧ -2 ≤ dd ∧ dd ≤ 35 ∧
        (s = 0 → x.hour ≤ 23 → x.min ≤ 59 → x.sec ≤ 59 → dd = (x.day : Int)) :=
    ⟨_, rfl, by omega, by omega, fun _ _ _ _ => by omega⟩
  have hy : x.yearAfter s
      = (normDay (dd.natAbs + 1) ((x.year : Int) + ((x.month : Int) - 1) / 12)
          (((x.month : Int) - 1) % 12 + 1) dd).1 := by
    unfold Time.yearAfter
    simp only [e1, norm_60, norm_24, norm_12]
    rw [hdd]
  rw [hy, normDay_year _ _ _ _ (by omega) (by omega)]
  have bd := daysIn_bounds (((x.month : Int) - 1) % 12 + 1)
    ((x.year : Int) + ((x.month : Int) - 1) / 12)
  refine ⟨?_, ?_, ?_⟩
  · split_ifs <;> omega
  · split_ifs <;> omega
  · intro v0 v1 v2 v3 v4 v5 v6
    have z := hd2 v0 v4 v5 v6
    have q : ((x.month : Int) - 1) / 12 = 0 := by omega
    rw [if_neg (fun h => by omega)]
    by_cases hdec : ((x.month : Int) - 1) % 12 + 1 = 12
    · have dz : daysIn (((x.month : Int) - 1) % 12 + 1)
          ((x.year : Int) + ((x.month : Int) - 1) / 12) = 31 := by
        rw [hdec]; exact daysIn_december _
      rw [if_neg (fun h => by omega), q]
      omega
    · rw [if_neg (fun h => hdec h.2), q]
      omega

/-- Counterexample to C15, on a machine whose local zone is UTC: the words
`d = 0`, `t = 0` (month field 0, day field 0) give the calendar constructor
the year 1980, month 0 and day 0, which it normalizes to 30 November 1979;
and the words `d = 0xFFFF`, `t = 0xFFFF` (month field 15) give it the year
2107 and month 15, which it normalizes into 2108. -/
theorem msdos_year_counterexample :
    (msdosTimeToGoTime 0 0).Year utcZone = 1979 ∧
    (msdosTimeToGoTime 0xFFFF 0xFFFF).Year utcZone = 2108 ∧
    ¬ (1980 ≤ (msdosTimeToGoTime 0 0).Year utcZone ∧
      (msdosTimeToGoTime 0 0).Year utcZone ≤ 2107) := by
  decide

/-- The year of the calendar time depends on the zone of the machine: the
words `d = 0x1D9F`, `t = 0x6000` ask for 31 December 1994, 12:00:00, all
fields in their usual ranges; in UTC the year is 1994, in the zone
`Pacific/Kiritimati`, where that day does not exist, the time built is
1 January 1995, 12:40:00, and the year is 1995. -/
theorem msdos_year_kiritimati :
    (msdosTimeToGoTime 0x1D9F 0x6000).year = 1994 ∧
    (msdosTimeToGoTime 0x1D9F 0x6000).Year utcZone = 1994 ∧
    (msdosTimeToGoTime 0x1D9F 0x6000).unixWall = 788875200 ∧
    (msdosTimeToGoTime 0x1D9F 0x6000).unixSec kiritimati = 788913600 ∧
    (msdosTimeToGoTime 0x1D9F 0x6000).zoneShift kiritimati = 88800 ∧
    (msdosTimeToGoTime 0x1D9F 0x6000).Year kiritimati = 1995 := by
  decide

/-- C15, amended: for a date word `d` and a 16-bit time word `t`, on a
machine whose local zone has all its offsets within one day of UTC, the year
`msdosTimeToGoTime(d, t)` gives to the calendar constructor is in 1980..2107,
and the year of the calendar time produced is in 1979..2108; it is the year
given, hence in 1980..2107, when the month field is 1 to 12, the day field at
least 1, the hours field at most 23, the minutes field at most 59, the
seconds value at most 59, and the time built shows in the local zone the date
and time asked (the zone shift is 0, as in every zone of constant offset; it
is not 0 when the time asked falls in a gap at a change of offset). -/
theorem msdos_year_range (z : Zone) (d t : Nat) (ht : t < 2 ^ 16)
    (hz : ∀ u, -86400 ≤ (z.lookup u).1 ∧ (z.lookup u).1 ≤ 86400) :
    1980 ≤ (msdosTimeToGoTime d t).year ∧ (msdosTimeToGoTime d t).year ≤ 2107 ∧
    1979 ≤ (msdosTimeToGoTime d t).Year z ∧ (msdosTimeToGoTime d t).Year z ≤ 2108 ∧
    ((msdosTimeToGoTime d t).zoneShift z = 0 →
      1 ≤ (msdosTimeToGoTime d t).month → (msdosTimeToGoTime d t).month ≤ 12 →
      1 ≤ (msdosTimeToGoTime d t).day → (msdosTimeToGoTime d t).hour ≤ 23 →
      (msdosTimeToGoTime d t).min ≤ 59 → (msdosTimeToGoTime d t).sec ≤ 59 →
      (msdosTimeToGoTime d t).Year z = ((msdosTimeToGoTime d t).year : Int) ∧
      1980 ≤ (msdosTimeToGoTime d t).Year z ∧ (msdosTimeToGoTime d t).Year z ≤ 2107) := by
  have hy : (msdosTimeToGoTime d t).year = d / 2 ^ 9 % 2 ^ 7 + 1980 := by
    rw [msdos_fields]; rfl
  have hmo : (msdosTimeToGoTime d t).month = d / 2 ^ 5 % 2 ^ 4 := by rw [msdos_fields]; rfl
  have hda : (msdosTimeToGoTime d t).day = d % 2 ^ 5 := by rw [msdos_fields]; rfl
  have hho : (msdosTimeToGoTime d t).hour = t / 2 ^ 11 := by rw [msdos_fields]; rfl
  have hmi : (msdosTimeToGoTime d t).min = t / 2 ^ 5 % 2 ^ 6 := by rw [msdos_fields]; rfl
  have hse : (msdosTimeToGoTime d t).sec = 2 * (t % 2 ^ 5) := by rw [msdos_fields]; rfl
  have hns : (msdosTimeToGoTime d t).nsec = 0 := by rw [msdos_fields]; rfl
  have hlo : (msdosTimeToGoTime d t).loc = Location.Local := by rw [msdos_fields]; rfl
  have r1 : (msdosTimeToGoTime d t).year ≤ 2107 := by rw [hy]; omega
  have r0 : 1980 ≤ (msdosTimeToGoTime d t).year := by rw [hy]; omega
  have eY : (msdosTimeToGoTime d t).Year z
      = (msdosTimeToGoTime d t).yearAfter ((msdosTimeToGoTime d t).zoneShift z) := by
    rw [Time.Year, hlo]; rfl
  have sb := zoneShift_bound z (msdosTimeToGoTime d t) 86400 hz
  obtain ⟨y1, y2, y3⟩ := year_of_fields (msdosTimeToGoTime d t)
    ((msdosTimeToGoTime d t).zoneShift z) (by omega) (by omega) (by rw [hmo]; omega)
    (by rw [hda]; omega) (by rw [hho]; omega) (by rw [hmi]; omega) (by rw [hse]; omega) hns
  rw [eY]
  refine ⟨r0, r1, by omega, by omega, ?_⟩
  intro v0 v1 v2 v3 v4 v5 v6
  have e := y3 v0 v1 v2 v3 v4 v5 v6
  exact ⟨e, by omega, by omega⟩

/-- Witness of C15, amended: 31 December 2107, 23:59:58, on a machine one hour
east of UTC. -/
theorem msdos_year_range_witness :
    (msdosTimeToGoTime 0xFF9F 0xBF7D).Year (fixedZone 3600) = 2107 :=
  ((msdos_year_range (fixedZone 3600) 0xFF9F 0xBF7D (by decide)
    (fun _ => ⟨by show (-86400 : Int) ≤ 3600; decide, by show (3600 : Int) ≤ 86400; decide⟩)).2.2.2.2 (by decide) (by decide) (by decide) (by decide)
    (by decide) (by decide) (by decide)).1



/-! ## The readers in Go's `int` arithmetic -/

theorem intAdd_eq (a b : Nat) (h : a + b < 2 ^ 63) : intAdd a b = ((a + b : Nat) : Int) := by
  unfold intAdd
  omega

theorem intAdd_wrap (a b : Nat) (ha : a < 2 ^ 63) (hb : b < 2 ^ 63) (h : 2 ^ 63 ≤ a + b) :
    intAdd a b = ((a + b : Nat) : Int) - 2 ^ 64 := by
  unfold intAdd
  omega

/-- Where `offset + 2` does not wrap, `readUint16` is the function of the
first family. -/
theorem readUint16W_eq (bs : List Byte) (offset : Nat) (h : offset + 2 < 2 ^ 63) :
    readUint16W bs offset = some (readUint16 bs offset) := by
  have e := intAdd_eq offset 2 h
  unfold readUint16W readUint16
  rw [e]
  by_cases hc : offset + 2 > bs.length
  · have hc2 : ((offset + 2 : Nat) : Int) > (bs.length : Int) := by omega
    simp only [if_pos hc, if_pos hc2]
  · have hc2 : ¬ ((offset + 2 : Nat) : Int) > (bs.length : Int) := by omega
    have hc3 : (offset : Int) ≤ ((offset + 2 : Nat) : Int) := by omega
    simp only [if_neg hc, if_neg hc2, if_pos hc3, Int.toNat_ofNat]

/-- Where `offset + 4` does not wrap, `readUint32` is the function of the
first family. -/
theorem readUint32W_eq (bs : List Byte) (offset : Nat) (h : offset + 4 < 2 ^ 63) :
    readUint32W bs offset = some (readUint32 bs offset) := by
  have e := intAdd_eq offset 4 h
  unfold readUint32W readUint32
  rw [e]
  by_cases hc : offset + 4 > bs.length
  · have hc2 : ((offset + 4 : Nat) : Int) > (bs.length : Int) := by omega
    simp only [if_pos hc, if_pos hc2]
  · have hc2 : ¬ ((offset + 4 : Nat) : Int) > (bs.length : Int) := by omega
    have hc3 : (offset : Int) ≤ ((offset + 4 : Nat) : Int) := by omega
    simp only [if_neg hc, if_neg hc2, if_pos hc3, Int.toNat_ofNat]

/-- Where `offset + n` does not wrap, `readBytes` is the function of the first
family. -/
theorem readBytesW_eq (bs : List Byte) (offset n : Nat) (h : offset + n < 2 ^ 63) :
    readBytesW bs offset n = some (readBytes bs offset n) := by
  have e := intAdd_eq offset n h
  unfold readBytesW readBytes
  rw [e]
  by_cases hc : offset + n > bs.length
  · have hc2 : ((offset + n : Nat) : Int) > (bs.length : Int) := by omega
    simp only [if_pos hc, if_pos hc2]
  · have hc2 : ¬ ((offset + n : Nat) : Int) > (bs.length : Int) := by omega
    have hc3 : (offset : Int) ≤ ((offset + n : Nat) : Int) := by omega
    simp only [if_neg hc, if_neg hc2, if_pos hc3, Int.toNat_ofNat]

/-- Where `offset + n` does not wrap, `readString` is the function of the
first family. -/
theorem readStringW_eq (bs : List Byte) (offset n : Nat) (h : offset + n < 2 ^ 63) :
    readStringW bs offset n = some (readString bs offset n) := by
  have e := readBytesW_eq bs offset n h
  rw [readStringW, e, readString, Option.map_some']

/-- Where the sum wraps, `readBytes` panics: the wrapped `end` is negative,
the guard `end > len(bs)` does not hold, and the slice expression is out of
range. -/
theorem readBytesW_panic (bs : List Byte) (offset n : Nat) (ho : offset < 2 ^ 63)
    (hn : n < 2 ^ 63) (h : 2 ^ 63 ≤ offset + n) : readBytesW bs offset n = none := by
  have e := intAdd_wrap offset n ho hn h
  unfold readBytesW
  rw [e]
  have hc2 : ¬ (((offset + n : Nat) : Int) - 2 ^ 64 > (bs.length : Int)) := by omega
  have hc3 : ¬ ((offset : Int) ≤ ((offset + n : Nat) : Int) - 2 ^ 64) := by omega
  simp only [if_neg hc2, if_neg hc3]

/-- Where the sum wraps, `readUint16` panics. -/
theorem readUint16W_panic (bs : List Byte) (offset : Nat) (ho : offset < 2 ^ 63)
    (h : 2 ^ 63 ≤ offset + 2) : readUint16W bs offset = none := by
  have e := intAdd_wrap offset 2 ho (by decide) h
  unfold readUint16W
  rw [e]
  have hc2 : ¬ (((offset + 2 : Nat) : Int) - 2 ^ 64 > (bs.length : Int)) := by omega
  have hc3 : ¬ ((offset : Int) ≤ ((offset + 2 : Nat) : Int) - 2 ^ 64) := by omega
  simp only [if_neg hc2, if_neg hc3]

/-- Where the sum wraps, `readUint32` panics. -/
theorem readUint32W_panic (bs : List Byte) (offset : Nat) (ho : offset < 2 ^ 63)
    (h : 2 ^ 63 ≤ offset + 4) : readUint32W bs offset = none := by
  have e := intAdd_wrap offset 4 ho (by decide) h
  unfold readUint32W
  rw [e]
  have hc2 : ¬ (((offset + 4 : Nat) : Int) - 2 ^ 64 > (bs.length : Int)) := by omega
  have hc3 : ¬ ((offset : Int) ≤ ((offset + 4 : Nat) : Int) - 2 ^ 64) := by omega
  simp only [if_neg hc2, if_neg hc3]

theorem u16At_lt (bs : List Byte) (k : Nat) : u16At bs k < 2 ^ 16 := by
  unfold u16At
  have h0 := (bs.getD k 0).isLt
  have h1 := (bs.getD (k + 1) 0).isLt
  omega

theorem u32At_lt (bs : List Byte) (k : Nat) : u32At bs k < 2 ^ 32 := by
  unfold u32At
  have h0 := (bs.getD k 0).isLt
  have h1 := (bs.getD (k + 1) 0).isLt
  have h2 := (bs.getD (k + 2) 0).isLt
  have h3 := (bs.getD (k + 3) 0).isLt
  omega



theorem stepW16 {β : Type} (bs : List Byte) (o : Nat) (k : Nat × Nat → Outcome β)
    (k2 : Nat × Nat → Except Error β) (ho : o + 2 < 2 ^ 63)
    (hk : k (u16At bs o, o + 2) = Outcome.ofExcept (k2 (u16At bs o, o + 2))) :
    (checkedW (readUint16W bs o) >>= k) = Outcome.ofExcept (checked (readUint16 bs o) >>= k2) := by
  rw [readUint16W_eq bs o ho, readUint16_eq]
  by_cases hc : bs.length < o + 2
  · rw [if_pos hc]; rfl
  · rw [if_neg hc]; exact hk

theorem stepW32 {β : Type} (bs : List Byte) (o : Nat) (k : Nat × Nat → Outcome β)
    (k2 : Nat × Nat → Except Error β) (ho : o + 4 < 2 ^ 63)
    (hk : k (u32At bs o, o + 4) = Outcome.ofExcept (k2 (u32At bs o, o + 4))) :
    (checkedW (readUint32W bs o) >>= k) = Outcome.ofExcept (checked (readUint32 bs o) >>= k2) := by
  rw [readUint32W_eq bs o ho, readUint32_eq]
  by_cases hc : bs.length < o + 4
  · rw [if_pos hc]; rfl
  · rw [if_neg hc]; exact hk

theorem stepWBytes {β : Type} (bs : List Byte) (o n : Nat) (k : List Byte × Nat → Outcome β)
    (k2 : List Byte × Nat → Except Error β) (ho : o + n < 2 ^ 63)
    (hk : k (slice bs o (o + n), o + n) = Outcome.ofExcept (k2 (slice bs o (o + n), o + n))) :
    (checkedW (readBytesW bs o n) >>= k)
      = Outcome.ofExcept (checked (readBytes bs o n) >>= k2) := by
  rw [readBytesW_eq bs o n ho]
  unfold readBytes
  by_cases hc : o + n > bs.length
  · simp only [if_pos hc]; rfl
  · simp only [if_neg hc]; exact hk

theorem stepWString {β : Type} (bs : List Byte) (o n : Nat)
    (k : List Byte × List Byte × Nat → Outcome β)
    (k2 : List Byte × List Byte × Nat → Except Error β) (ho : o + n < 2 ^ 63)
    (hk : k (slice bs o (o + n), slice bs o (o + n), o + n)
      = Outcome.ofExcept (k2 (slice bs o (o + n), slice bs o (o + n), o + n))) :
    (checkedStringW (readStringW bs o n) >>= k)
      = Outcome.ofExcept (checkedString (readString bs o n) >>= k2) := by
  rw [readStringW_eq bs o n ho]
  unfold readString readBytes
  by_cases hc : o + n > bs.length
  · simp only [if_pos hc]; rfl
  · simp only [if_neg hc]; exact hk



/-- Where no sum can wrap (`start + 2^33 <= 2^63`: the offsets of a parse are
below `start + 30 + 2 * 2^16 + 2^32`), the parser in `int` arithmetic is the
parser of the first family. -/
theorem parseW_eq (inflate : List Byte → Except Nat (List Byte)) (bs : List Byte) (start : Nat)
    (hb : start + 2 ^ 33 ≤ 2 ^ 63) :
    parseLocalFileHeaderW inflate bs start
      = Outcome.ofExcept (parseLocalFileHeader inflate bs start) := by
  have e0 := readUint32W_eq bs start (by omega)
  rw [parseLocalFileHeaderW, parseLocalFileHeader, e0, readUint32_eq]
  by_cases h4 : bs.length < start + 4
  · simp only [if_pos h4]
    rfl
  · simp only [if_neg h4]
    by_cases hs : u32At bs start = 0x04034b50
    · have hs2 : ¬ (u32At bs start ≠ 0x04034b50) := not_not.mpr hs
      have h16 := u16At_lt bs
      have h32 := u32At_lt bs
      rw [if_neg hs2]
      show (if (u32At bs start, start + 4, (none : Option Error)).1 ≠ 0x04034b50 then _ else _) = _
      rw [if_neg hs2]
      dsimp only
      refine stepW16 bs _ _ _ (by omega) ?_
      dsimp only
      refine stepW16 bs _ _ _ (by omega) ?_
      dsimp only
      refine stepW16 bs _ _ _ (by omega) ?_
      dsimp only
      refine stepW16 bs _ _ _ (by omega) ?_
      dsimp only
      refine stepW16 bs _ _ _ (by omega) ?_
      dsimp only
      refine stepW32 bs _ _ _ (by omega) ?_
      dsimp only
      refine stepW32 bs _ _ _ (by omega) ?_
      dsimp only
      refine stepW32 bs _ _ _ (by omega) ?_
      dsimp only
      refine stepW16 bs _ _ _ (by omega) ?_
      dsimp only
      refine stepW16 bs _ _ _ (by omega) ?_
      dsimp only
      have f1 := h16 (start + 4 + 2 + 2 + 2 + 2 + 2 + 4 + 4 + 4)
      have f2 := h16 (start + 4 + 2 + 2 + 2 + 2 + 2 + 4 + 4 + 4 + 2)
      have f3 := h32 (start + 4 + 2 + 2 + 2 + 2 + 2 + 4 + 4)
      have f4 := h32 (start + 4 + 2 + 2 + 2 + 2 + 2 + 4)
      refine stepWString bs _ _ _ _ (by omega) ?_
      dsimp only
      refine stepWBytes bs _ _ _ _ (by omega) ?_
      dsimp only
      by_cases hcomp : (if 8 = u16At bs (start + 4 + 2 + 2) then compression.deflateCompression
          else compression.noCompression) = compression.noCompression
      · rw [if_pos hcomp, if_pos hcomp]
        refine stepWString bs _ _ _ _ (by omega) ?_
        rfl
      · rw [if_neg hcomp, if_neg hcomp]
        have hi : start + 4 + 2 + 2 + 2 + 2 + 2 + 4 + 4 + 4 + 2 + 2
            + u16At bs (start + 4 + 2 + 2 + 2 + 2 + 2 + 4 + 4 + 4)
            + u16At bs (start + 4 + 2 + 2 + 2 + 2 + 2 + 4 + 4 + 4 + 2)
            + u32At bs (start + 4 + 2 + 2 + 2 + 2 + 2 + 4) < 2 ^ 63 := by omega
        rw [intAdd_eq _ _ hi]
        by_cases hg : start + 4 + 2 + 2 + 2 + 2 + 2 + 4 + 4 + 4 + 2 + 2
            + u16At bs (start + 4 + 2 + 2 + 2 + 2 + 2 + 4 + 4 + 4)
            + u16At bs (start + 4 + 2 + 2 + 2 + 2 + 2 + 4 + 4 + 4 + 2)
            + u32At bs (start + 4 + 2 + 2 + 2 + 2 + 2 + 4) > bs.length
        · rw [if_pos (Int.ofNat_lt.mpr hg), if_pos hg]
          rfl
        · rw [if_neg (fun h => hg (Int.ofNat_lt.mp h)), if_neg hg,
            if_pos (Int.ofNat_le.mpr (Nat.le_add_right _ _)), Int.toNat_ofNat]
          cases inflate _ <;> rfl
    · rw [if_pos hs]
      show (if (u32At bs start, start + 4, (none : Option Error)).1 ≠ 0x04034b50 then _ else _) = _
      rw [if_pos hs]
      rfl



/-! ## The contract of the readers in Go's `int` arithmetic -/

/-- Counterexample to C8: at the offset `2^63 - 1`, the largest `int`, the sum
`offset + 2` (`offset + 4`) is past the end of a 3-byte buffer, and
`readUint16` and `readUint32` panic instead of failing with
`errOverranBuffer`: the sum wraps to a negative `end`, the guard
`end > len(bs)` does not hold and the slice expression is out of range. -/
theorem readUintW_counterexample :
    (2 ^ 63 - 1) + 2 > ([0x01, 0x02, 0x03] : List Byte).length ∧
    readUint16W [0x01, 0x02, 0x03] (2 ^ 63 - 1) = none ∧
    readUint32W [0x01, 0x02, 0x03] (2 ^ 63 - 1) = none := by
  decide

/-- C8, amended: for every buffer and every offset `>= 0` whose sum
`offset + 2` does not wrap (`offset + 2 < 2^63`), `readUint16(bs, offset)`
fails with `errOverranBuffer` exactly when `offset + 2 > len(bs)`, and
otherwise returns `bs[offset] + 256*bs[offset+1]` with next offset
`offset + 2`; and for `offset + 4 < 2^63`, `readUint32(bs, offset)` fails with
`errOverranBuffer` exactly when `offset + 4 > len(bs)`, and otherwise returns
`bs[offset] + 2^8*bs[offset+1] + 2^16*bs[offset+2] + 2^24*bs[offset+3]` with
next offset `offset + 4`. For the offsets left, up to the largest `int`, whose
sum wraps, the two readers panic. -/
theorem readUintW_contract (bs : List Byte) (offset : Nat) :
    (offset + 2 < 2 ^ 63 →
      ((∃ v next, readUint16W bs offset = some (v, next, some Error.errOverranBuffer)) ↔
        offset + 2 > bs.length) ∧
      (∀ h : offset + 2 ≤ bs.length,
        readUint16W bs offset
          = some ((bs.get ⟨offset, by omega⟩).val + 256 * (bs.get ⟨offset + 1, by omega⟩).val,
              offset + 2, none))) ∧
    (offset + 4 < 2 ^ 63 →
      ((∃ v next, readUint32W bs offset = some (v, next, some Error.errOverranBuffer)) ↔
        offset + 4 > bs.length) ∧
      (∀ h : offset + 4 ≤ bs.length,
        readUint32W bs offset
          = some ((bs.get ⟨offset, by omega⟩).val + 2 ^ 8 * (bs.get ⟨offset + 1, by omega⟩).val
              + 2 ^ 16 * (bs.get ⟨offset + 2, by omega⟩).val
              + 2 ^ 24 * (bs.get ⟨offset + 3, by omega⟩).val, offset + 4, none))) ∧
    (offset < 2 ^ 63 → 2 ^ 63 ≤ offset + 2 → readUint16W bs offset = none) ∧
    (offset < 2 ^ 63 → 2 ^ 63 ≤ offset + 4 → readUint32W bs offset = none) := by
  obtain ⟨n1, n2, n3, n4⟩ := readUint_nat bs offset
  refine ⟨?_, ?_, readUint16W_panic bs offset, readUint32W_panic bs offset⟩
  · intro hb
    rw [readUint16W_eq bs offset hb]
    refine ⟨⟨?_, ?_⟩, fun h => by rw [n2 h]⟩
    · rintro ⟨v, next, hv⟩
      have e := Option.some.inj hv
      exact n1.mp (by rw [e])
    · intro h
      have e := n1.mpr h
      exact ⟨(readUint16 bs offset).1, (readUint16 bs offset).2.1, by rw [← e]⟩
  · intro hb
    rw [readUint32W_eq bs offset hb]
    refine ⟨⟨?_, ?_⟩, fun h => by rw [n4 h]⟩
    · rintro ⟨v, next, hv⟩
      have e := Option.some.inj hv
      exact n3.mp (by rw [e])
    · intro h
      have e := n3.mpr h
      exact ⟨(readUint32 bs offset).1, (readUint32 bs offset).2.1, by rw [← e]⟩

/-- Witness of C8, amended: the two reads at offset 1 of a 5-byte buffer. -/
theorem readUintW_contract_witness :
    readUint16W [0x00, 0x34, 0x12, 0x78, 0x56] 1 = some (0x1234, 3, none) ∧
    readUint32W [0x00, 0x34, 0x12, 0x78, 0x56] 1 = some (0x56781234, 5, none) :=
  ⟨((readUintW_contract [0x00, 0x34, 0x12, 0x78, 0x56] 1).1 (by decide)).2 (by decide),
    ((readUintW_contract [0x00, 0x34, 0x12, 0x78, 0x56] 1).2.1 (by decide)).2 (by decide)⟩

/-- Counterexample to C9: with offset 1 and `n = 2^63 - 1`, the largest `int`,
the sum `offset + n` is past the end of a 5-byte buffer, and `readBytes`
panics instead of failing with `errOverranBuffer`: the sum wraps to the
smallest `int`, the guard does not hold and `bs[1 : offset+n]` is out of
range. -/
theorem readBytesW_counterexample :
    1 + (2 ^ 63 - 1) > ([0x00, 0x34, 0xFF, 0x78, 0x56] : List Byte).length ∧
    readBytesW [0x00, 0x34, 0xFF, 0x78, 0x56] 1 (2 ^ 63 - 1) = none ∧
    readStringW [0x00, 0x34, 0xFF, 0x78, 0x56] 1 (2 ^ 63 - 1) = none := by
  decide

/-- C9, amended: for every buffer, offset `>= 0` and `n >= 0` whose sum
`offset + n` does not wrap (`offset + n < 2^63`), `readBytes(bs, offset, n)`
fails with `errOverranBuffer` exactly when `offset + n > len(bs)`, and
otherwise returns the `n` bytes `bs[offset]`, ..., `bs[offset+n-1]` with next
offset `offset + n`; `readString` returns what `readBytes` returns, the bytes
unchanged and given twice, with the same next offset and the same error (and
panics when `readBytes` panics). For the `int`s `offset` and `n` left, whose
sum wraps, `readBytes` panics. -/
theorem readBytesW_contract (bs : List Byte) (offset n : Nat) :
    (offset + n < 2 ^ 63 →
      ((∃ v next, readBytesW bs offset n = some (v, next, some Error.errOverranBuffer)) ↔
        offset + n > bs.length) ∧
      (∀ h : offset + n ≤ bs.length,
        readBytesW bs offset n
          = some (List.ofFn (fun k : Fin n => bs.get ⟨offset + k.val, by have := k.isLt; omega⟩),
              offset + n, none))) ∧
    readStringW bs offset n
      = (readBytesW bs offset n).map (fun r => (r.1, r.1, r.2.1, r.2.2)) ∧
    (offset < 2 ^ 63 → n < 2 ^ 63 → 2 ^ 63 ≤ offset + n → readBytesW bs offset n = none) := by
  obtain ⟨n1, n2, _⟩ := readBytes_nat bs offset n
  refine ⟨?_, rfl, readBytesW_panic bs offset n⟩
  intro hb
  rw [readBytesW_eq bs offset n hb]
  refine ⟨⟨?_, ?_⟩, fun h => by rw [n2 h]⟩
  · rintro ⟨v, next, hv⟩
    have e := Option.some.inj hv
    exact n1.mp (by rw [e])
  · intro h
    have e := n1.mpr h
    exact ⟨(readBytes bs offset n).1, (readBytes bs offset n).2.1, by rw [← e]⟩

/-- Witness of C9, amended: three bytes read at offset 1 of a 5-byte buffer,
one of them not valid text. -/
theorem readBytesW_contract_witness :
    readBytesW [0x00, 0x34, 0xFF, 0x78, 0x56] 1 3 = some ([0x34, 0xFF, 0x78], 4, none) :=
  ((readBytesW_contract [0x00, 0x34, 0xFF, 0x78, 0x56] 1 3).1 (by decide)).2 (by decide)



/-! ## The parser in Go's `int` arithmetic -/

theorem ofExcept_map {α : Type} (x : Except Error (α × Nat)) (f : Nat → Nat) :
    Outcome.ofExcept (x.map (fun r => (r.1, f r.2))) = (Outcome.ofExcept x).mapNext f := by
  cases x <;> rfl

/-- Counterexample to C5: at `start = 2^63 - 1`, the largest `int`, on a
buffer whose four bytes are the signature of the central directory, no value
equal to `0x04034B50` is read at `start`, and `parseLocalFileHeader` does not
fail with `errNotZip`: it panics, in the slice expression of its first
read. -/
theorem parseW_errNotZip_counterexample :
    readUint32W (le32 0x02014b50) (2 ^ 63 - 1) = none ∧
    parseLocalFileHeaderW storedInflate (le32 0x02014b50) (2 ^ 63 - 1) = Outcome.panic ∧
    parseLocalFileHeaderW storedInflate (le32 0x02014b50) (2 ^ 63 - 1)
      ≠ Outcome.err Error.errNotZip := by
  decide

/-- C5, amended: for every start `>= 0` whose sum `start + 4` does not wrap
(`start + 4 < 2^63`), when the 32-bit value read at `start` is not
`0x04034B50`, `parseLocalFileHeader(bs, start)` fails with `errNotZip`,
whatever else the buffer holds; in particular at offset 0 for every buffer
that does not begin with the bytes `50 4B 03 04`. For the starts left, up to
the largest `int`, whose sum wraps, `parseLocalFileHeader` panics. -/
theorem parseW_errNotZip (inflate : List Byte → Except Nat (List Byte)) (bs : List Byte)
    (start : Nat) :
    (start + 4 < 2 ^ 63 →
      (∀ r, readUint32W bs start = some r → r.1 ≠ 0x04034b50) →
      parseLocalFileHeaderW inflate bs start = Outcome.err Error.errNotZip) ∧
    ((∀ rest, bs ≠ 0x50 :: 0x4B :: 0x03 :: 0x04 :: rest) →
      parseLocalFileHeaderW inflate bs 0 = Outcome.err Error.errNotZip) ∧
    (start < 2 ^ 63 → 2 ^ 63 ≤ start + 4 →
      parseLocalFileHeaderW inflate bs start = Outcome.panic) := by
  refine ⟨?_, ?_, ?_⟩
  · intro hb h
    have e0 := readUint32W_eq bs start hb
    have hne := h _ e0
    rw [parseLocalFileHeaderW, e0]
    show (if (readUint32 bs start).1 ≠ 0x04034b50 then _ else _) = _
    rw [if_pos hne]
  · intro h
    rw [parseW_eq inflate bs 0 (by decide), parse_not_signature inflate bs h]
    rfl
  · intro ho h
    rw [parseLocalFileHeaderW, readUint32W_panic bs start ho h]
    rfl

/-- Witness of C5, amended: a buffer that begins with the signature of the
central directory, at offset 0 and at offset 4, where the signature of a
local file header stands only in part. -/
theorem parseW_errNotZip_witness :
    parseLocalFileHeaderW storedInflate (le32 0x02014b50 ++ [0x50, 0x4B]) 4
      = Outcome.err Error.errNotZip ∧
    parseLocalFileHeaderW storedInflate (le32 0x02014b50 ++ [0x50, 0x4B]) 0
      = Outcome.err Error.errNotZip :=
  ⟨(parseW_errNotZip storedInflate (le32 0x02014b50 ++ [0x50, 0x4B]) 4).1 (by decide)
      (by decide),
    (parseW_errNotZip storedInflate (le32 0x02014b50 ++ [0x50, 0x4B]) 0).2.1
      (fun rest h => by cases h)⟩

/-- Counterexample to C18: with the one byte `p = [0]` put before the empty
buffer and `start = 2^63 - 5`, `parseLocalFileHeader(bs, start)` fails with
`errNotZip` while `parseLocalFileHeader(p ++ bs, len(p) + start)` panics: the
sum `start + 4` is the largest `int`, and one more wraps. -/
theorem parseW_position_counterexample :
    parseLocalFileHeaderW storedInflate [] (2 ^ 63 - 5) = Outcome.err Error.errNotZip ∧
    parseLocalFileHeaderW storedInflate ([0] ++ [])
      (([0] : List Byte).length + (2 ^ 63 - 5)) = Outcome.panic := by
  decide

/-- C18, amended: where no sum can wrap (`len(p) + start + 2^33 <= 2^63`; the
offsets of a parse are below `start + 2^33`), `parseLocalFileHeader` is
position-independent and depends only on the bytes from `start` onward: with
any bytes `p` put before the buffer and the start moved by `len(p)`, the
error is the same, or the header and the content are the same and the next
offset is `len(p)` more; and the result at `start` is the result at 0 on the
bytes from `start` onward, the next offset moved by `start`. -/
theorem parseW_position_independent (inflate : List Byte → Except Nat (List Byte))
    (p bs : List Byte) (start : Nat) (hb : p.length + start + 2 ^ 33 ≤ 2 ^ 63) :
    parseLocalFileHeaderW inflate (p ++ bs) (p.length + start)
      = (parseLocalFileHeaderW inflate bs start).mapNext (fun next => p.length + next) ∧
    parseLocalFileHeaderW inflate bs start
      = (parseLocalFileHeaderW inflate (bs.drop start) 0).mapNext
          (fun next => start + next) := by
  constructor
  · rw [parseW_eq inflate (p ++ bs) (p.length + start) hb,
      parseW_eq inflate bs start (by omega), parse_append_left, ofExcept_map]
  · rw [parseW_eq inflate bs start (by omega), parseW_eq inflate (bs.drop start) 0 (by decide),
      parse_drop_start, ofExcept_map]

/-- Witness of C18, amended: the entry `a.txt` alone and after two bytes. -/
theorem parseW_position_independent_witness :
    parseLocalFileHeaderW storedInflate
        ([0, 0] ++ entryBytes ⟨20, 0, 0, 0x6000, 0x5A21, 0xdeadbeef, 3, 3⟩ (ascii "a.txt") []
          (ascii "hi!")) (2 + 0)
      = (parseLocalFileHeaderW storedInflate
          (entryBytes ⟨20, 0, 0, 0x6000, 0x5A21, 0xdeadbeef, 3, 3⟩ (ascii "a.txt") []
            (ascii "hi!")) 0).mapNext (fun next => 2 + next) :=
  (parseW_position_independent storedInflate [0, 0]
    (entryBytes ⟨20, 0, 0, 0x6000, 0x5A21, 0xdeadbeef, 3, 3⟩ (ascii "a.txt") [] (ascii "hi!")) 0
    (by decide)).1

end GoZip
